import Mathlib

/-
  Verification of the get_next_line incremental segment reader.

  The development shallowly embeds the C sources (get_next_line.c /
  get_next_line.h).  A per-descriptor buffer keeps its valid bytes
  (indices 0 to len-1 of the C store) as a Lean list; the allocated
  capacity and the end-of-stream flag are carried alongside.  The
  scratch bytes between len and the capacity are undefined in the C
  program and are therefore not modelled.  The underlying read
  primitive is modelled by a list of read events: a returned chunk of
  bytes (a zero-length chunk is the end-of-stream signal, as in POSIX
  read) or an error return.  Allocation success is an explicit boolean
  parameter; a fallible operation returns its C result together with
  the state it leaves behind, so a failure path that performs no write
  returns the input state unchanged, exactly as the C code does.
-/

/-- State of one descriptor's buffer, mirroring struct s_gnl_buffer.
data holds exactly the valid unconsumed bytes (the first len bytes of
the C store), size is the allocated capacity, eof_reached the EOF flag. -/
structure GnlBuffer where
  data : List Nat
  size : Nat
  eof_reached : Bool
deriving DecidableEq

/-- The filled byte count: in the model it is the length of the valid
prefix kept in data. -/
def GnlBuffer.len (b : GnlBuffer) : Nat := b.data.length

/-- Default refill chunk size (GNL_BUFFER_SIZE in get_next_line.h). -/
def GNL_BUFFER_SIZE : Nat := 4096

/-- Highest supported descriptor bound (GNL_MAX_FD in get_next_line.h). -/
def GNL_MAX_FD : Int := 1024

/-- Default delimiter byte, the newline character. -/
def GNL_DEFAULT_DELIM : Nat := 10

/-- The doubling search inside gnl_ensure_capacity: while
new_size - len < needed, new_size is doubled.  The C loop is unbounded;
the fuel parameter makes the translation total, and len + needed + 1
rounds are proved sufficient whenever the starting size is positive
(with size zero the C loop itself never terminates). -/
def gnl_grow_loop : Nat → Nat → Nat → Nat → Nat
  | 0, new_size, _, _ => new_size
  | fuel + 1, new_size, len, needed =>
    if new_size - len < needed then gnl_grow_loop fuel (new_size * 2) len needed
    else new_size

/-- gnl_ensure_capacity from get_next_line.c.  Subtraction on size_t is
modelled by truncated Nat subtraction; the two agree on every state
satisfying the buffer invariant len <= size.  The first component is
the C success flag (true for 0, false for -1); realloc failure is the
allocOk = false case and leaves the state untouched, as the C failure
path writes nothing. -/
def gnl_ensure_capacity (allocOk : Bool) (buf : GnlBuffer) (needed : Nat) :
    Bool × GnlBuffer :=
  if needed ≤ buf.size - buf.len then (true, buf)
  else
    let new_size := gnl_grow_loop (buf.len + needed + 1) buf.size buf.len needed
    if allocOk then (true, { buf with size := new_size })
    else (false, buf)

/-- gnl_extract_line from get_next_line.c.  On allocation success the
returned allocation holds the first delim_pos + 1 valid bytes followed
by the terminating zero byte the C code writes at index line_len, and
the remaining bytes are shifted to the front of the store (the memmove
compaction); on malloc failure nothing is written and NULL is returned. -/
def gnl_extract_line (allocOk : Bool) (buf : GnlBuffer) (delim_pos : Nat) :
    Option (List Nat) × GnlBuffer :=
  if allocOk then
    (some (buf.data.take (delim_pos + 1) ++ [0]),
     { buf with data := buf.data.drop (delim_pos + 1) })
  else (none, buf)

/-- The memchr scan over the valid bytes: index of the first occurrence
of the byte d, or none. -/
def gnl_memchr (d : Nat) : List Nat → Option Nat
  | [] => none
  | b :: rest => if b = d then some 0 else (gnl_memchr d rest).map (· + 1)

/-- gnl_find_delim from get_next_line.c: position of the delimiter in
the valid bytes, none when absent or when the buffer is empty. -/
def gnl_find_delim (buf : GnlBuffer) (delim : Nat) : Option Nat :=
  if buf.len = 0 then none
  else gnl_memchr delim buf.data

/-- One result of the underlying read primitive: a returned chunk of
bytes (empty meaning end of stream) or a negative/error return. -/
inductive ReadEv where
  | chunk (bs : List Nat)
  | rerr
deriving DecidableEq

/-- gnl_fill_buffer from get_next_line.c.  Capacity for one chunk is
ensured, then one read event is consumed.  An exhausted event list
behaves like a stream that keeps reporting zero bytes.  The first
component is the C return value: none for -1 (capacity failure or read
error), some n for n bytes read. -/
def gnl_fill_buffer (allocOk : Bool) (chunkSize : Nat) (buf : GnlBuffer)
    (evs : List ReadEv) : Option Nat × GnlBuffer × List ReadEv :=
  match gnl_ensure_capacity allocOk buf chunkSize with
  | (false, b) => (none, b, evs)
  | (true, b) =>
    match evs with
    | [] => (some 0, { b with eof_reached := true }, [])
    | ReadEv.rerr :: rest => (none, b, rest)
    | ReadEv.chunk bs :: rest =>
      if bs.length = 0 then
        (some 0, { b with eof_reached := true }, rest)
      else
        (some bs.length, { b with data := b.data ++ bs }, rest)

/-- Return status of one get_next_line_delim call: GNL_LINE_READ,
GNL_EOF, GNL_ERROR. -/
inductive GnlStatus where
  | lineRead
  | eofS
  | errS
deriving DecidableEq

/- Basic facts about the leaf operations. -/

theorem gnl_ensure_snd_data (a : Bool) (buf : GnlBuffer) (n : Nat) :
    ((gnl_ensure_capacity a buf n).2).data = buf.data := by
  unfold gnl_ensure_capacity
  split
  · rfl
  · split <;> rfl

theorem gnl_ensure_snd_eof (a : Bool) (buf : GnlBuffer) (n : Nat) :
    ((gnl_ensure_capacity a buf n).2).eof_reached = buf.eof_reached := by
  unfold gnl_ensure_capacity
  split
  · rfl
  · split <;> rfl

theorem gnl_ensure_snd_len (a : Bool) (buf : GnlBuffer) (n : Nat) :
    ((gnl_ensure_capacity a buf n).2).len = buf.len := by
  unfold GnlBuffer.len
  rw [gnl_ensure_snd_data]

theorem gnl_ensure_fst_true (buf : GnlBuffer) (n : Nat) :
    (gnl_ensure_capacity true buf n).1 = true := by
  unfold gnl_ensure_capacity
  split <;> rfl

theorem gnl_fill_measure (a : Bool) (c : Nat) (buf : GnlBuffer) (evs : List ReadEv)
    (n : Nat) (buf' : GnlBuffer) (evs' : List ReadEv)
    (hfill : gnl_fill_buffer a c buf evs = (some n, buf', evs'))
    (heof : buf.eof_reached = false) :
    2 * evs'.length + (if buf'.eof_reached then 0 else 1) <
      2 * evs.length + (if buf.eof_reached then 0 else 1) := by
  unfold gnl_fill_buffer at hfill
  rcases hens : gnl_ensure_capacity a buf c with ⟨ok, b⟩
  have hbe : b.eof_reached = buf.eof_reached := by
    have h := gnl_ensure_snd_eof a buf c
    rw [hens] at h
    exact h
  rw [hens] at hfill
  cases ok with
  | false => simp at hfill
  | true =>
    cases evs with
    | nil =>
      simp only [Prod.mk.injEq] at hfill
      obtain ⟨-, hb, he⟩ := hfill
      subst hb he
      simp [heof]
    | cons e rest =>
      cases e with
      | rerr => simp at hfill
      | chunk bs =>
        simp only [] at hfill
        by_cases hlen : bs.length = 0
        · rw [if_pos hlen] at hfill
          simp only [Prod.mk.injEq] at hfill
          obtain ⟨-, hb, he⟩ := hfill
          subst hb he
          simp [heof]
          omega
        · rw [if_neg hlen] at hfill
          simp only [Prod.mk.injEq] at hfill
          obtain ⟨-, hb, he⟩ := hfill
          subst hb he
          simp only [hbe, heof, List.length_cons]
          split <;> omega

/-- The scan/extract/refill loop of get_next_line_delim, everything the
C function does after validation and buffer lookup.  The result is the
C return status, the value stored through the line out-parameter, and
the buffer and read-event state left behind. -/
def gnl_loop (allocOk : Bool) (chunkSize delim : Nat) (buf : GnlBuffer)
    (evs : List ReadEv) : GnlStatus × Option (List Nat) × GnlBuffer × List ReadEv :=
  match gnl_find_delim buf delim with
  | some p =>
    match gnl_extract_line allocOk buf p with
    | (some raw, buf') => (GnlStatus.lineRead, some raw, buf', evs)
    | (none, buf') => (GnlStatus.errS, none, buf', evs)
  | none =>
    if heof : buf.eof_reached then
      if 0 < buf.len then
        match gnl_extract_line allocOk buf (buf.len - 1) with
        | (some raw, buf') => (GnlStatus.lineRead, some raw, buf', evs)
        | (none, buf') => (GnlStatus.errS, none, buf', evs)
      else (GnlStatus.eofS, none, buf, evs)
    else
      match hfill : gnl_fill_buffer allocOk chunkSize buf evs with
      | (none, buf', evs') => (GnlStatus.errS, none, buf', evs')
      | (some n, buf', evs') => gnl_loop allocOk chunkSize delim buf' evs'
termination_by 2 * evs.length + (if buf.eof_reached then 0 else 1)
decreasing_by
  exact gnl_fill_measure allocOk chunkSize buf evs n buf' evs' hfill
    (Bool.not_eq_true _ ▸ heof)

/- Branch-wise unfolding facts for gnl_loop. -/

theorem gnl_loop_eq_found (a : Bool) (c d : Nat) (buf : GnlBuffer) (evs : List ReadEv)
    (p : Nat) (raw : List Nat) (buf' : GnlBuffer)
    (hfind : gnl_find_delim buf d = some p)
    (hext : gnl_extract_line a buf p = (some raw, buf')) :
    gnl_loop a c d buf evs = (GnlStatus.lineRead, some raw, buf', evs) := by
  rw [gnl_loop.eq_def, hfind]
  simp only [hext]

theorem gnl_loop_eq_found_fail (a : Bool) (c d : Nat) (buf : GnlBuffer) (evs : List ReadEv)
    (p : Nat) (buf' : GnlBuffer)
    (hfind : gnl_find_delim buf d = some p)
    (hext : gnl_extract_line a buf p = (none, buf')) :
    gnl_loop a c d buf evs = (GnlStatus.errS, none, buf', evs) := by
  rw [gnl_loop.eq_def, hfind]
  simp only [hext]

theorem gnl_loop_eq_rem (a : Bool) (c d : Nat) (buf : GnlBuffer) (evs : List ReadEv)
    (raw : List Nat) (buf' : GnlBuffer)
    (hfind : gnl_find_delim buf d = none)
    (heof : buf.eof_reached = true)
    (hlen : 0 < buf.len)
    (hext : gnl_extract_line a buf (buf.len - 1) = (some raw, buf')) :
    gnl_loop a c d buf evs = (GnlStatus.lineRead, some raw, buf', evs) := by
  rw [gnl_loop.eq_def, hfind]
  simp only []
  rw [dif_pos heof, if_pos hlen]
  simp only [hext]

theorem gnl_loop_eq_rem_fail (a : Bool) (c d : Nat) (buf : GnlBuffer) (evs : List ReadEv)
    (buf' : GnlBuffer)
    (hfind : gnl_find_delim buf d = none)
    (heof : buf.eof_reached = true)
    (hlen : 0 < buf.len)
    (hext : gnl_extract_line a buf (buf.len - 1) = (none, buf')) :
    gnl_loop a c d buf evs = (GnlStatus.errS, none, buf', evs) := by
  rw [gnl_loop.eq_def, hfind]
  simp only []
  rw [dif_pos heof, if_pos hlen]
  simp only [hext]

theorem gnl_loop_eq_eof (a : Bool) (c d : Nat) (buf : GnlBuffer) (evs : List ReadEv)
    (hfind : gnl_find_delim buf d = none)
    (heof : buf.eof_reached = true)
    (hlen : ¬0 < buf.len) :
    gnl_loop a c d buf evs = (GnlStatus.eofS, none, buf, evs) := by
  rw [gnl_loop.eq_def, hfind]
  simp only []
  rw [dif_pos heof, if_neg hlen]

theorem gnl_loop_eq_fill_err (a : Bool) (c d : Nat) (buf : GnlBuffer) (evs : List ReadEv)
    (buf' : GnlBuffer) (evs' : List ReadEv)
    (hfind : gnl_find_delim buf d = none)
    (heof : buf.eof_reached = false)
    (hfill : gnl_fill_buffer a c buf evs = (none, buf', evs')) :
    gnl_loop a c d buf evs = (GnlStatus.errS, none, buf', evs') := by
  rw [gnl_loop.eq_def, hfind]
  simp only []
  rw [dif_neg (by rw [heof]; exact Bool.false_ne_true)]
  split
  · rename_i b2 e2 hf2
    rw [hfill] at hf2
    simp only [Prod.mk.injEq] at hf2
    obtain ⟨-, h1, h2⟩ := hf2
    subst h1 h2
    rfl
  · rename_i n2 b2 e2 hf2
    rw [hfill] at hf2
    exact absurd hf2 (by simp)

theorem gnl_loop_eq_fill_ok (a : Bool) (c d : Nat) (buf : GnlBuffer) (evs : List ReadEv)
    (n : Nat) (buf' : GnlBuffer) (evs' : List ReadEv)
    (hfind : gnl_find_delim buf d = none)
    (heof : buf.eof_reached = false)
    (hfill : gnl_fill_buffer a c buf evs = (some n, buf', evs')) :
    gnl_loop a c d buf evs = gnl_loop a c d buf' evs' := by
  rw [gnl_loop.eq_def, hfind]
  simp only []
  rw [dif_neg (by rw [heof]; exact Bool.false_ne_true)]
  split
  · rename_i b2 e2 hf2
    rw [hfill] at hf2
    exact absurd hf2 (by simp)
  · rename_i n2 b2 e2 hf2
    rw [hfill] at hf2
    simp only [Prod.mk.injEq, Option.some.injEq] at hf2
    obtain ⟨-, h1, h2⟩ := hf2
    subst h1 h2
    rfl

/- The per-descriptor registry and the public entry points. -/

/-- The process-wide registry g_buffers: a map from descriptor to its
lazily created buffer state.  Descriptors are modelled as integers so
that negative handles can be expressed. -/
def Registry : Type := Int → Option GnlBuffer

/-- Point update of the registry. -/
def regSet (reg : Registry) (fd : Int) (b : Option GnlBuffer) : Registry :=
  fun x => if x = fd then b else reg x

/-- The registry before any buffer has been created. -/
def emptyReg : Registry := fun _ => none

/-- gnl_get_buffer from get_next_line.c: return the existing buffer for
fd or lazily create a fresh one (len 0, capacity one chunk, EOF flag
clear).  Creation fails when allocation fails, leaving the registry
unchanged. -/
def gnl_get_buffer (allocOk : Bool) (chunkSize : Nat) (reg : Registry) (fd : Int) :
    Option GnlBuffer × Registry :=
  match reg fd with
  | some b => (some b, reg)
  | none =>
    if allocOk then
      (some { data := [], size := chunkSize, eof_reached := false },
       regSet reg fd (some { data := [], size := chunkSize, eof_reached := false }))
    else (none, reg)

/-- Final value of the line out-parameter of get_next_line_delim:
untouched (validation failed before the initial *line = NULL write),
null, or an allocated byte string. -/
inductive LineCell where
  | untouched
  | nullp
  | strL (raw : List Nat)
deriving DecidableEq

/-- get_next_line_delim from get_next_line.c.  lineNonNull models
whether the caller passed a non-null line pointer; chunkSize is the
GNL_BUFFER_SIZE build constant.  The result carries the C return
status, the final value of *line, and the registry and read-event
state left behind. -/
def get_next_line_delim (allocOk lineNonNull : Bool) (chunkSize : Nat) (fd : Int)
    (delim : Nat) (reg : Registry) (evs : List ReadEv) :
    GnlStatus × LineCell × Registry × List ReadEv :=
  if ¬lineNonNull ∨ fd < 0 ∨ GNL_MAX_FD ≤ fd then
    (GnlStatus.errS, LineCell.untouched, reg, evs)
  else
    match gnl_get_buffer allocOk chunkSize reg fd with
    | (none, reg') => (GnlStatus.errS, LineCell.nullp, reg', evs)
    | (some buf, reg') =>
      match gnl_loop allocOk chunkSize delim buf evs with
      | (st, some raw, buf', evs') =>
        (st, LineCell.strL raw, regSet reg' fd (some buf'), evs')
      | (st, none, buf', evs') =>
        (st, LineCell.nullp, regSet reg' fd (some buf'), evs')

/-- get_next_line from get_next_line.c: the newline-delimiter wrapper. -/
def get_next_line (allocOk lineNonNull : Bool) (chunkSize : Nat) (fd : Int)
    (reg : Registry) (evs : List ReadEv) :
    GnlStatus × LineCell × Registry × List ReadEv :=
  get_next_line_delim allocOk lineNonNull chunkSize fd GNL_DEFAULT_DELIM reg evs

/-- gnl_close from get_next_line.c: free the buffer of one descriptor.
Out-of-range descriptors and absent buffers are untouched. -/
def gnl_close (reg : Registry) (fd : Int) : Registry :=
  if fd < 0 ∨ GNL_MAX_FD ≤ fd then reg
  else
    match reg fd with
    | some _ => regSet reg fd none
    | none => reg

/-- gnl_cleanup_all from get_next_line.c: close every descriptor. -/
def gnl_cleanup_all (reg : Registry) : Registry :=
  (List.range 1024).foldl (fun r i => gnl_close r (Int.ofNat i)) reg

/- Facts about the memchr scan. -/

theorem gnl_memchr_lt (d : Nat) :
    ∀ (l : List Nat) (i : Nat), gnl_memchr d l = some i → i < l.length := by
  intro l
  induction l with
  | nil => intro i h; simp [gnl_memchr] at h
  | cons b rest ih =>
    intro i h
    unfold gnl_memchr at h
    by_cases hb : b = d
    · rw [if_pos hb] at h
      obtain rfl := Option.some.injEq .. ▸ h
      simp
    · rw [if_neg hb] at h
      rcases hm : gnl_memchr d rest with - | j
      · rw [hm] at h; simp at h
      · rw [hm] at h
        simp only [Option.map_some', Option.some.injEq] at h
        subst h
        have := ih j hm
        simp
        omega

theorem gnl_memchr_take (d : Nat) :
    ∀ (l : List Nat) (i : Nat), gnl_memchr d l = some i →
      l.take (i + 1) = l.take i ++ [d] := by
  intro l
  induction l with
  | nil => intro i h; simp [gnl_memchr] at h
  | cons b rest ih =>
    intro i h
    unfold gnl_memchr at h
    by_cases hb : b = d
    · rw [if_pos hb] at h
      obtain rfl := Option.some.injEq .. ▸ h
      simp [hb]
    · rw [if_neg hb] at h
      rcases hm : gnl_memchr d rest with - | j
      · rw [hm] at h; simp at h
      · rw [hm] at h
        simp only [Option.map_some', Option.some.injEq] at h
        subst h
        simp only [List.take_succ_cons, List.cons_append, List.cons.injEq, true_and]
        exact ih j hm

theorem gnl_memchr_before (d : Nat) :
    ∀ (l : List Nat) (i : Nat), gnl_memchr d l = some i →
      ∀ b ∈ l.take i, ¬b = d := by
  intro l
  induction l with
  | nil => intro i h; simp [gnl_memchr] at h
  | cons b rest ih =>
    intro i h
    unfold gnl_memchr at h
    by_cases hb : b = d
    · rw [if_pos hb] at h
      obtain rfl := Option.some.injEq .. ▸ h
      simp
    · rw [if_neg hb] at h
      rcases hm : gnl_memchr d rest with - | j
      · rw [hm] at h; simp at h
      · rw [hm] at h
        simp only [Option.map_some', Option.some.injEq] at h
        subst h
        intro x hx
        simp only [List.take_succ_cons, List.mem_cons] at hx
        rcases hx with rfl | hx
        · exact hb
        · exact ih j hm x hx

theorem gnl_memchr_none (d : Nat) :
    ∀ (l : List Nat), gnl_memchr d l = none → ∀ b ∈ l, ¬b = d := by
  intro l
  induction l with
  | nil => intro _ b hb; simp at hb
  | cons b rest ih =>
    intro h x hx
    unfold gnl_memchr at h
    by_cases hb : b = d
    · rw [if_pos hb] at h; simp at h
    · rw [if_neg hb] at h
      simp only [List.mem_cons] at hx
      rcases hx with rfl | hx
      · exact hb
      · rcases hm : gnl_memchr d rest with - | j
        · exact ih hm x hx
        · rw [hm] at h; simp at h

theorem gnl_memchr_append_some (d : Nat) :
    ∀ (l1 l2 : List Nat) (i : Nat), gnl_memchr d l1 = some i →
      gnl_memchr d (l1 ++ l2) = some i := by
  intro l1
  induction l1 with
  | nil => intro l2 i h; simp [gnl_memchr] at h
  | cons b rest ih =>
    intro l2 i h
    rw [List.cons_append]
    unfold gnl_memchr at h ⊢
    by_cases hb : b = d
    · rw [if_pos hb] at h ⊢; exact h
    · rw [if_neg hb] at h ⊢
      rcases hm : gnl_memchr d rest with - | j
      · rw [hm] at h; simp at h
      · rw [hm] at h
        rw [ih l2 j hm]
        exact h

/-- Reference segmentation written from the specification text: split
the input after every occurrence of the delimiter byte, the final
segment keeping no trailing delimiter when the input ends without one.
The loop/extract machinery of the implementation is proved to produce
exactly this segmentation. -/
def splitSegs (d : Nat) (input : List Nat) : List (List Nat) :=
  match hm : gnl_memchr d input with
  | some p => input.take (p + 1) :: splitSegs d (input.drop (p + 1))
  | none => if input.isEmpty then [] else [input]
termination_by input.length
decreasing_by
  have hp := gnl_memchr_lt d input p hm
  simp only [List.length_drop]
  omega

theorem splitSegs_eq_found (d : Nat) (input : List Nat) (p : Nat)
    (hm : gnl_memchr d input = some p) :
    splitSegs d input = input.take (p + 1) :: splitSegs d (input.drop (p + 1)) := by
  rw [splitSegs.eq_def]
  split
  · rename_i p2 hm2
    rw [hm] at hm2
    obtain rfl := Option.some.injEq .. ▸ hm2
    rfl
  · rename_i hm2
    rw [hm] at hm2
    exact absurd hm2 (by simp)

theorem splitSegs_eq_none (d : Nat) (input : List Nat)
    (hm : gnl_memchr d input = none) :
    splitSegs d input = if input.isEmpty then [] else [input] := by
  rw [splitSegs.eq_def]
  split
  · rename_i p2 hm2
    rw [hm] at hm2
    exact absurd hm2 (by simp)
  · rfl

theorem splitSegs_nil (d : Nat) : splitSegs d [] = [] := by
  rw [splitSegs_eq_none d [] rfl]
  rfl

/- Stream bookkeeping for the read-event oracle. -/

/-- Bytes the underlying stream produces: the chunk payloads in order. -/
def streamBytes : List ReadEv → List Nat
  | [] => []
  | ReadEv.chunk bs :: r => bs ++ streamBytes r
  | ReadEv.rerr :: r => streamBytes r

/-- A well-formed read event for chunk size c: a non-empty chunk of at
most c bytes, which is how a POSIX read on a healthy stream answers a
request for c bytes before end of stream. -/
def wfEv (c : Nat) : ReadEv → Bool
  | ReadEv.chunk bs => decide (0 < bs.length) && decide (bs.length ≤ c)
  | ReadEv.rerr => false

/-- A well-formed event list: every read answers with a non-empty chunk
of at most c bytes; the end of the list is the end of the stream. -/
def WFStream (c : Nat) (evs : List ReadEv) : Bool := evs.all (wfEv c)

/-- A cost on pending events used as a termination measure: each event
costs its payload plus one. -/
def evsCost : List ReadEv → Nat
  | [] => 0
  | ReadEv.chunk bs :: r => bs.length + 1 + evsCost r
  | ReadEv.rerr :: r => 1 + evsCost r

/-- The deterministic read schedule of a regular file holding input,
read c bytes at a time: full chunks until the bytes run out. -/
def chunkEvents (c : Nat) (input : List Nat) : List ReadEv :=
  if input = [] ∨ c = 0 then []
  else ReadEv.chunk (input.take c) :: chunkEvents c (input.drop c)
termination_by input.length
decreasing_by
  rename_i h
  push_neg at h
  obtain ⟨h1, h2⟩ := h
  have : 0 < input.length := List.length_pos.mpr h1
  simp only [List.length_drop]
  omega

/-- The ensure-capacity step under successful allocation: it always
reports success and changes at most the capacity field. -/
theorem gnl_ensure_true_char (buf : GnlBuffer) (n : Nat) :
    gnl_ensure_capacity true buf n =
      (true, { buf with size := ((gnl_ensure_capacity true buf n).2).size }) := by
  have h1 := gnl_ensure_fst_true buf n
  have h2 := gnl_ensure_snd_data true buf n
  have h3 := gnl_ensure_snd_eof true buf n
  rcases he : gnl_ensure_capacity true buf n with ⟨ok, b⟩
  rw [he] at h1 h2 h3
  simp only at h1 h2 h3
  subst h1
  rcases b with ⟨bd, bs, bf⟩
  simp only at h2 h3
  subst h2 h3
  rfl

/-- No byte is lost or duplicated by one refill attempt, whatever its
outcome: the valid bytes plus the bytes the stream can still produce
are invariant. -/
theorem gnl_fill_noloss (a : Bool) (c : Nat) (buf : GnlBuffer) (evs : List ReadEv)
    (r : Option Nat) (buf' : GnlBuffer) (evs' : List ReadEv)
    (hfill : gnl_fill_buffer a c buf evs = (r, buf', evs')) :
    buf'.data ++ streamBytes evs' = buf.data ++ streamBytes evs := by
  unfold gnl_fill_buffer at hfill
  rcases hens : gnl_ensure_capacity a buf c with ⟨ok, b⟩
  have hbd : b.data = buf.data := by
    have h := gnl_ensure_snd_data a buf c
    rw [hens] at h
    exact h
  rw [hens] at hfill
  cases ok with
  | false =>
    simp only [Prod.mk.injEq] at hfill
    obtain ⟨-, h1, h2⟩ := hfill
    subst h1 h2
    rw [hbd]
  | true =>
    cases evs with
    | nil =>
      simp only [Prod.mk.injEq] at hfill
      obtain ⟨-, h1, h2⟩ := hfill
      subst h1 h2
      simp [streamBytes, hbd]
    | cons e rest =>
      cases e with
      | rerr =>
        simp only [Prod.mk.injEq] at hfill
        obtain ⟨-, h1, h2⟩ := hfill
        subst h1 h2
        simp [streamBytes, hbd]
      | chunk bs =>
        simp only [] at hfill
        by_cases hlen : bs.length = 0
        · rw [if_pos hlen] at hfill
          simp only [Prod.mk.injEq] at hfill
          obtain ⟨-, h1, h2⟩ := hfill
          subst h1 h2
          have : bs = [] := List.length_eq_zero.mp hlen
          subst this
          simp [streamBytes, hbd]
        · rw [if_neg hlen] at hfill
          simp only [Prod.mk.injEq] at hfill
          obtain ⟨-, h1, h2⟩ := hfill
          subst h1 h2
          simp [streamBytes, hbd, List.append_assoc]

/-- One refill leaves the event list unchanged or consumes its head. -/
theorem gnl_fill_evs (a : Bool) (c : Nat) (buf : GnlBuffer) (evs : List ReadEv)
    (r : Option Nat) (buf' : GnlBuffer) (evs' : List ReadEv)
    (hfill : gnl_fill_buffer a c buf evs = (r, buf', evs')) :
    evs' = evs ∨ evs' = evs.tail := by
  unfold gnl_fill_buffer at hfill
  rcases hens : gnl_ensure_capacity a buf c with ⟨ok, b⟩
  rw [hens] at hfill
  cases ok with
  | false =>
    simp only [Prod.mk.injEq] at hfill
    obtain ⟨-, -, h2⟩ := hfill
    exact Or.inl h2.symm
  | true =>
    cases evs with
    | nil =>
      simp only [Prod.mk.injEq] at hfill
      obtain ⟨-, -, h2⟩ := hfill
      exact Or.inl h2.symm
    | cons e rest =>
      cases e with
      | rerr =>
        simp only [Prod.mk.injEq] at hfill
        obtain ⟨-, -, h2⟩ := hfill
        exact Or.inr h2.symm
      | chunk bs =>
        simp only [] at hfill
        by_cases hlen : bs.length = 0
        · rw [if_pos hlen] at hfill
          simp only [Prod.mk.injEq] at hfill
          obtain ⟨-, -, h2⟩ := hfill
          exact Or.inr h2.symm
        · rw [if_neg hlen] at hfill
          simp only [Prod.mk.injEq] at hfill
          obtain ⟨-, -, h2⟩ := hfill
          exact Or.inr h2.symm

/-- A well-formed event list stays well-formed when its head is consumed. -/
theorem WFStream_tail (c : Nat) (evs : List ReadEv)
    (h : WFStream c evs = true) : WFStream c evs.tail = true := by
  cases evs with
  | nil => exact h
  | cons e rest =>
    unfold WFStream at h ⊢
    simp only [List.all_cons, Bool.and_eq_true] at h
    exact h.2

/-- Refilling with working allocation from a well-formed stream never
reports a read failure. -/
theorem gnl_fill_true_wf_some (c : Nat) (buf : GnlBuffer) (evs : List ReadEv)
    (hwf : WFStream c evs = true) (buf' : GnlBuffer) (evs' : List ReadEv)
    (hfill : gnl_fill_buffer true c buf evs = (none, buf', evs')) : False := by
  unfold gnl_fill_buffer at hfill
  rw [gnl_ensure_true_char buf c] at hfill
  cases evs with
  | nil => simp at hfill
  | cons e rest =>
    cases e with
    | rerr =>
      unfold WFStream at hwf
      simp only [List.all_cons, Bool.and_eq_true] at hwf
      exact absurd hwf.1 (by simp [wfEv])
    | chunk bs =>
      simp only [] at hfill
      by_cases hlen : bs.length = 0
      · rw [if_pos hlen] at hfill; simp at hfill
      · rw [if_neg hlen] at hfill; simp at hfill

/-- A successful refill from a well-formed stream keeps the stream
well-formed and keeps the property that the EOF flag is only set once
the event list is exhausted. -/
theorem gnl_fill_some_inv (c : Nat) (buf : GnlBuffer) (evs : List ReadEv)
    (hwf : WFStream c evs = true)
    (hinv : buf.eof_reached = true → evs = [])
    (n : Nat) (buf' : GnlBuffer) (evs' : List ReadEv)
    (hfill : gnl_fill_buffer true c buf evs = (some n, buf', evs')) :
    WFStream c evs' = true ∧ (buf'.eof_reached = true → evs' = []) := by
  unfold gnl_fill_buffer at hfill
  rw [gnl_ensure_true_char buf c] at hfill
  cases evs with
  | nil =>
    simp only [Prod.mk.injEq] at hfill
    obtain ⟨-, h1, h2⟩ := hfill
    subst h1 h2
    exact ⟨rfl, fun _ => rfl⟩
  | cons e rest =>
    unfold WFStream at hwf
    simp only [List.all_cons, Bool.and_eq_true] at hwf
    cases e with
    | rerr => exact absurd hwf.1 (by simp [wfEv])
    | chunk bs =>
      have hbs : 0 < bs.length := by
        have := hwf.1
        simp [wfEv] at this
        exact this.1
      simp only [] at hfill
      rw [if_neg (Nat.pos_iff_ne_zero.mp hbs)] at hfill
      simp only [Prod.mk.injEq] at hfill
      obtain ⟨-, h1, h2⟩ := hfill
      subst h1 h2
      refine ⟨hwf.2, ?_⟩
      intro h
      simp only at h
      exact absurd (hinv h) (by simp)

/-- A successful refill never increases the event-cost-plus-filled
measure. -/
theorem gnl_fill_cost_le (a : Bool) (c : Nat) (buf : GnlBuffer) (evs : List ReadEv)
    (n : Nat) (buf' : GnlBuffer) (evs' : List ReadEv)
    (hfill : gnl_fill_buffer a c buf evs = (some n, buf', evs')) :
    evsCost evs' + buf'.len ≤ evsCost evs + buf.len := by
  unfold gnl_fill_buffer at hfill
  rcases hens : gnl_ensure_capacity a buf c with ⟨ok, b⟩
  have hbl : b.len = buf.len := by
    have h := gnl_ensure_snd_len a buf c
    rw [hens] at h
    exact h
  rw [hens] at hfill
  cases ok with
  | false => simp at hfill
  | true =>
    cases evs with
    | nil =>
      simp only [Prod.mk.injEq] at hfill
      obtain ⟨-, h1, h2⟩ := hfill
      subst h1 h2
      simp only [GnlBuffer.len] at hbl ⊢
      simp [hbl]
    | cons e rest =>
      cases e with
      | rerr => simp at hfill
      | chunk bs =>
        simp only [] at hfill
        by_cases hlen : bs.length = 0
        · rw [if_pos hlen] at hfill
          simp only [Prod.mk.injEq] at hfill
          obtain ⟨-, h1, h2⟩ := hfill
          subst h1 h2
          simp only [GnlBuffer.len] at hbl ⊢
          simp only [evsCost, hbl]
          omega
        · rw [if_neg hlen] at hfill
          simp only [Prod.mk.injEq] at hfill
          obtain ⟨-, h1, h2⟩ := hfill
          subst h1 h2
          simp only [GnlBuffer.len, List.length_append] at hbl ⊢
          simp only [evsCost, hbl]
          omega

/-- A successful extraction: the allocation holds the first
delim_pos + 1 bytes and the terminating zero, and the store is
compacted to the bytes after the extracted prefix. -/
theorem gnl_extract_some_char (a : Bool) (buf : GnlBuffer) (p : Nat)
    (raw : List Nat) (buf' : GnlBuffer)
    (hext : gnl_extract_line a buf p = (some raw, buf')) :
    raw = buf.data.take (p + 1) ++ [0] ∧
      buf' = { buf with data := buf.data.drop (p + 1) } := by
  unfold gnl_extract_line at hext
  cases a with
  | false => simp at hext
  | true =>
    rw [if_pos rfl] at hext
    simp only [Prod.mk.injEq, Option.some.injEq] at hext
    exact ⟨hext.1.symm, hext.2.symm⟩

/-- A failed extraction only happens when allocation fails, and then
nothing is written. -/
theorem gnl_extract_none_char (a : Bool) (buf : GnlBuffer) (p : Nat)
    (buf' : GnlBuffer)
    (hext : gnl_extract_line a buf p = (none, buf')) :
    a = false ∧ buf' = buf := by
  unfold gnl_extract_line at hext
  cases a with
  | false =>
    rw [if_neg (by simp)] at hext
    simp only [Prod.mk.injEq] at hext
    exact ⟨rfl, hext.2.symm⟩
  | true => simp at hext

/-- A found delimiter position comes from the memchr scan. -/
theorem gnl_find_some_memchr (buf : GnlBuffer) (d p : Nat)
    (h : gnl_find_delim buf d = some p) : gnl_memchr d buf.data = some p := by
  unfold gnl_find_delim at h
  split at h
  · exact absurd h (by simp)
  · exact h

/-- A found delimiter position lies inside the valid bytes. -/
theorem gnl_find_some_lt (buf : GnlBuffer) (d p : Nat)
    (h : gnl_find_delim buf d = some p) : p < buf.len := by
  exact gnl_memchr_lt d buf.data p (gnl_find_some_memchr buf d p h)

/-- When the scan reports no delimiter, the valid bytes hold none. -/
theorem gnl_find_none_char (buf : GnlBuffer) (d : Nat)
    (h : gnl_find_delim buf d = none) : ∀ b ∈ buf.data, ¬b = d := by
  unfold gnl_find_delim at h
  split at h
  · rename_i hlen
    unfold GnlBuffer.len at hlen
    rw [List.length_eq_zero.mp hlen]
    simp
  · exact gnl_memchr_none d buf.data h

/-- Any call of the loop that returns GNL_LINE_READ strictly decreases
the event-cost-plus-filled measure: the extracted segment is at least
one byte that is gone from the combined pending state. -/
theorem gnl_loop_lineRead_cost (a : Bool) (c d : Nat) (buf : GnlBuffer) (evs : List ReadEv) :
    ∀ (l : Option (List Nat)) (buf' : GnlBuffer) (evs' : List ReadEv),
      gnl_loop a c d buf evs = (GnlStatus.lineRead, l, buf', evs') →
      evsCost evs' + buf'.len < evsCost evs + buf.len := by
  induction buf, evs using gnl_loop.induct a c d with
  | case1 buf evs p hfind raw bufE hext =>
    intro l buf' evs' h
    rw [gnl_loop_eq_found a c d buf evs p raw bufE hfind hext] at h
    simp only [Prod.mk.injEq] at h
    obtain ⟨-, -, h1, h2⟩ := h
    subst h1 h2
    obtain ⟨-, hbufE⟩ := gnl_extract_some_char a buf p raw bufE hext
    subst hbufE
    have hp := gnl_find_some_lt buf d p hfind
    simp only [GnlBuffer.len, List.length_drop] at hp ⊢
    omega
  | case2 buf evs p hfind bufE hext =>
    intro l buf' evs' h
    rw [gnl_loop_eq_found_fail a c d buf evs p bufE hfind hext] at h
    simp at h
  | case3 buf evs hfind heof hlen raw bufE hext =>
    intro l buf' evs' h
    rw [gnl_loop_eq_rem a c d buf evs raw bufE hfind heof hlen hext] at h
    simp only [Prod.mk.injEq] at h
    obtain ⟨-, -, h1, h2⟩ := h
    subst h1 h2
    obtain ⟨-, hbufE⟩ := gnl_extract_some_char a buf (buf.len - 1) raw bufE hext
    subst hbufE
    simp only [GnlBuffer.len, List.length_drop] at hlen ⊢
    omega
  | case4 buf evs hfind heof hlen bufE hext =>
    intro l buf' evs' h
    rw [gnl_loop_eq_rem_fail a c d buf evs bufE hfind heof hlen hext] at h
    simp at h
  | case5 buf evs hfind heof hlen =>
    intro l buf' evs' h
    rw [gnl_loop_eq_eof a c d buf evs hfind heof hlen] at h
    simp at h
  | case6 buf evs hfind heof bufE evsE hfill =>
    intro l buf' evs' h
    rw [gnl_loop_eq_fill_err a c d buf evs bufE evsE hfind
      (Bool.not_eq_true _ ▸ heof) hfill] at h
    simp at h
  | case7 buf evs hfind heof n bufE evsE hfill ih =>
    intro l buf' evs' h
    rw [gnl_loop_eq_fill_ok a c d buf evs n bufE evsE hfind
      (Bool.not_eq_true _ ▸ heof) hfill] at h
    have h1 := ih l buf' evs' h
    have h2 := gnl_fill_cost_le a c buf evs n bufE evsE hfill
    omega

/-- When the scan reports no delimiter on a non-empty buffer, memchr
itself reports none. -/
theorem gnl_find_none_memchr (buf : GnlBuffer) (d : Nat)
    (h : gnl_find_delim buf d = none) (hlen : 0 < buf.len) :
    gnl_memchr d buf.data = none := by
  unfold gnl_find_delim at h
  split at h
  · rename_i h0
    exact absurd h0 (Nat.pos_iff_ne_zero.mp hlen)
  · exact h

/-- One call of the loop, with working allocation, against a
well-formed stream whose EOF flag is only set once the events ran out:
a GNL_LINE_READ call peels exactly the first segment of the reference
segmentation of the remaining bytes, a GNL_EOF call happens only when
no byte remains, and no error is possible. -/
theorem gnl_loop_splits (c d : Nat) (buf : GnlBuffer) (evs : List ReadEv) :
    ∀ (st : GnlStatus) (l : Option (List Nat)) (buf' : GnlBuffer) (evs' : List ReadEv),
      gnl_loop true c d buf evs = (st, l, buf', evs') →
      WFStream c evs = true →
      (buf.eof_reached = true → evs = []) →
      (st = GnlStatus.lineRead →
        ∃ raw, l = some raw ∧
          splitSegs d (buf.data ++ streamBytes evs)
            = raw.dropLast :: splitSegs d (buf'.data ++ streamBytes evs') ∧
          WFStream c evs' = true ∧ (buf'.eof_reached = true → evs' = [])) ∧
      (st = GnlStatus.eofS → buf.data ++ streamBytes evs = []) ∧
      st ≠ GnlStatus.errS := by
  induction buf, evs using gnl_loop.induct true c d with
  | case1 buf evs p hfind raw0 bufE hext =>
    intro st l buf' evs' h hwf hinv
    rw [gnl_loop_eq_found true c d buf evs p raw0 bufE hfind hext] at h
    simp only [Prod.mk.injEq] at h
    obtain ⟨hst, hl, h1, h2⟩ := h
    subst hst hl h1 h2
    obtain ⟨hraw, hbufE⟩ := gnl_extract_some_char true buf p raw0 bufE hext
    subst hraw hbufE
    have hp := gnl_find_some_lt buf d p hfind
    have hmem := gnl_find_some_memchr buf d p hfind
    refine ⟨fun _ => ⟨_, rfl, ?_, hwf, hinv⟩, fun hc => absurd hc (by simp),
      by simp⟩
    have happ := gnl_memchr_append_some d buf.data (streamBytes evs) p hmem
    rw [splitSegs_eq_found d (buf.data ++ streamBytes evs) p happ]
    unfold GnlBuffer.len at hp
    rw [List.take_append_of_le_length (by omega),
        List.drop_append_of_le_length (by omega)]
    simp
  | case2 buf evs p hfind bufE hext =>
    intro st l buf' evs' h hwf hinv
    obtain ⟨hfalse, -⟩ := gnl_extract_none_char true buf p bufE hext
    simp at hfalse
  | case3 buf evs hfind heof hlen raw0 bufE hext =>
    intro st l buf' evs' h hwf hinv
    have hevs : evs = [] := hinv heof
    subst hevs
    rw [gnl_loop_eq_rem true c d buf [] raw0 bufE hfind heof hlen hext] at h
    simp only [Prod.mk.injEq] at h
    obtain ⟨hst, hl, h1, h2⟩ := h
    subst hst hl h1 h2
    obtain ⟨hraw, hbufE⟩ := gnl_extract_some_char true buf (buf.len - 1) raw0 bufE hext
    subst hraw hbufE
    have hlen' : buf.len - 1 + 1 = buf.len := by omega
    have hmem := gnl_find_none_memchr buf d hfind hlen
    refine ⟨fun _ => ⟨_, rfl, ?_, rfl, fun _ => rfl⟩, fun hc => absurd hc (by simp),
      by simp⟩
    rw [hlen']
    simp only [streamBytes, List.append_nil, GnlBuffer.len, List.take_length,
      List.drop_length]
    rw [splitSegs_eq_none d buf.data hmem, splitSegs_nil]
    have hne : buf.data ≠ [] := by
      intro hq
      unfold GnlBuffer.len at hlen
      rw [hq] at hlen
      simp at hlen
    simp [hne]
  | case4 buf evs hfind heof hlen bufE hext =>
    intro st l buf' evs' h hwf hinv
    obtain ⟨hfalse, -⟩ := gnl_extract_none_char true buf (buf.len - 1) bufE hext
    simp at hfalse
  | case5 buf evs hfind heof hlen =>
    intro st l buf' evs' h hwf hinv
    have hevs : evs = [] := hinv heof
    subst hevs
    rw [gnl_loop_eq_eof true c d buf [] hfind heof hlen] at h
    simp only [Prod.mk.injEq] at h
    obtain ⟨hst, -, -, -⟩ := h
    subst hst
    have hdata : buf.data = [] := by
      unfold GnlBuffer.len at hlen
      exact List.length_eq_zero.mp (by omega)
    refine ⟨fun hc => absurd hc (by simp), fun _ => ?_, by simp⟩
    simp [hdata, streamBytes]
  | case6 buf evs hfind heof bufE evsE hfill =>
    intro st l buf' evs' h hwf hinv
    exact absurd hfill (fun hq => gnl_fill_true_wf_some c buf evs hwf bufE evsE hq)
  | case7 buf evs hfind heof n bufE evsE hfill ih =>
    intro st l buf' evs' h hwf hinv
    rw [gnl_loop_eq_fill_ok true c d buf evs n bufE evsE hfind
      (Bool.not_eq_true _ ▸ heof) hfill] at h
    have hnl := gnl_fill_noloss true c buf evs (some n) bufE evsE hfill
    obtain ⟨hwfE, hinvE⟩ := gnl_fill_some_inv c buf evs hwf hinv n bufE evsE hfill
    obtain ⟨hA, hB, hC⟩ := ih st l buf' evs' h hwfE hinvE
    refine ⟨?_, ?_, hC⟩
    · intro hst
      obtain ⟨raw, hraw, heq, hrest⟩ := hA hst
      exact ⟨raw, hraw, by rw [← hnl]; exact heq, hrest⟩
    · intro hst
      rw [← hnl]
      exact hB hst

/-- How get_next_line_delim stores the loop's line result through the
out-parameter. -/
def lineCellOf : Option (List Nat) → LineCell
  | some raw => LineCell.strL raw
  | none => LineCell.nullp

/-- The buffer gnl_get_buffer hands to the loop: the registered one, or
the fresh zero-filled buffer it creates. -/
def bufAt (reg : Registry) (fd : Int) (chunkSize : Nat) : GnlBuffer :=
  match reg fd with
  | some b => b
  | none => { data := [], size := chunkSize, eof_reached := false }

/-- Filled byte count registered for a descriptor (zero when absent). -/
def regLen (reg : Registry) (fd : Int) : Nat :=
  match reg fd with
  | some b => b.len
  | none => 0

theorem regLen_bufAt (reg : Registry) (fd : Int) (c : Nat) :
    (bufAt reg fd c).len = regLen reg fd := by
  unfold bufAt regLen
  cases reg fd with
  | none => rfl
  | some b => rfl

theorem regSet_same (reg : Registry) (fd : Int) (b : Option GnlBuffer) :
    regSet reg fd b fd = b := by
  unfold regSet
  rw [if_pos rfl]

theorem regSet_other (reg : Registry) (fd x : Int) (b : Option GnlBuffer)
    (h : x ≠ fd) : regSet reg fd b x = reg x := by
  unfold regSet
  rw [if_neg h]

theorem gnl_get_buffer_fst (c : Nat) (reg : Registry) (fd : Int) :
    (gnl_get_buffer true c reg fd).1 = some (bufAt reg fd c) := by
  unfold gnl_get_buffer bufAt
  cases reg fd with
  | none => rfl
  | some b => rfl

/-- get_next_line_delim on a valid call is exactly validation, buffer
lookup and the loop, with the loop's buffer written back into the
registry. -/
theorem get_next_line_delim_valid (c : Nat) (fd : Int) (d : Nat) (reg : Registry)
    (evs : List ReadEv)
    (hv : ¬(fd < 0 ∨ GNL_MAX_FD ≤ fd))
    (st : GnlStatus) (l : Option (List Nat)) (buf' : GnlBuffer) (evs' : List ReadEv)
    (hloop : gnl_loop true c d (bufAt reg fd c) evs = (st, l, buf', evs')) :
    get_next_line_delim true true c fd d reg evs =
      (st, lineCellOf l, regSet (gnl_get_buffer true c reg fd).2 fd (some buf'), evs') := by
  unfold get_next_line_delim
  rw [if_neg (by simpa using hv)]
  have hg : gnl_get_buffer true c reg fd =
      (some (bufAt reg fd c), (gnl_get_buffer true c reg fd).2) := by
    rcases hq : gnl_get_buffer true c reg fd with ⟨b1, r1⟩
    have := gnl_get_buffer_fst c reg fd
    rw [hq] at this
    simp only at this
    rw [this]
  rw [hg]
  simp only []
  rw [hloop]
  cases l with
  | none => rfl
  | some raw => rfl

/-- An invalid descriptor or a null line pointer is rejected before
anything is touched. -/
theorem get_next_line_delim_invalid (a nn : Bool) (c : Nat) (fd : Int) (d : Nat)
    (reg : Registry) (evs : List ReadEv)
    (hv : ¬nn = true ∨ fd < 0 ∨ GNL_MAX_FD ≤ fd) :
    get_next_line_delim a nn c fd d reg evs =
      (GnlStatus.errS, LineCell.untouched, reg, evs) := by
  unfold get_next_line_delim
  rw [if_pos (by simpa using hv)]

/-- A GNL_LINE_READ call strictly decreases the pending-event cost plus
the registered filled count: the measure that makes a whole read-out
run terminate. -/
theorem driver_lineRead_cost (c : Nat) (fd : Int) (d : Nat) (reg : Registry)
    (evs : List ReadEv) (raw : List Nat) (reg' : Registry) (evs' : List ReadEv)
    (h : get_next_line_delim true true c fd d reg evs
      = (GnlStatus.lineRead, LineCell.strL raw, reg', evs')) :
    evsCost evs' + regLen reg' fd < evsCost evs + regLen reg fd := by
  by_cases hv : fd < 0 ∨ GNL_MAX_FD ≤ fd
  · rw [get_next_line_delim_invalid true true c fd d reg evs (Or.inr hv)] at h
    simp at h
  · rcases hloop : gnl_loop true c d (bufAt reg fd c) evs with ⟨st, l, bufE, evsE⟩
    rw [get_next_line_delim_valid c fd d reg evs hv st l bufE evsE hloop] at h
    simp only [Prod.mk.injEq] at h
    obtain ⟨hst, hcell, hreg, hevs⟩ := h
    subst hst
    have hcost := gnl_loop_lineRead_cost true c d (bufAt reg fd c) evs l bufE evsE hloop
    rw [regLen_bufAt reg fd c] at hcost
    rw [← hreg, ← hevs]
    have hr : regLen (regSet (gnl_get_buffer true c reg fd).2 fd (some bufE)) fd
        = bufE.len := by
      unfold regLen
      rw [regSet_same]
    rw [hr]
    exact hcost

/-- Successive get_next_line_delim calls on one descriptor, collecting
every returned segment, until the first call that does not return
GNL_LINE_READ; that call's status and final state are returned with
the segments.  This is the caller-side read-out pattern the testable
properties of the specification quantify over. -/
def gnl_run (c : Nat) (fd : Int) (d : Nat) (reg : Registry) (evs : List ReadEv) :
    List (List Nat) × GnlStatus × Registry × List ReadEv :=
  match hcall : get_next_line_delim true true c fd d reg evs with
  | (GnlStatus.lineRead, LineCell.strL raw, reg', evs') =>
    let r := gnl_run c fd d reg' evs'
    (raw.dropLast :: r.1, r.2)
  | (GnlStatus.lineRead, LineCell.untouched, reg', evs') => ([], GnlStatus.errS, reg', evs')
  | (GnlStatus.lineRead, LineCell.nullp, reg', evs') => ([], GnlStatus.errS, reg', evs')
  | (GnlStatus.eofS, cell, reg', evs') => ([], GnlStatus.eofS, reg', evs')
  | (GnlStatus.errS, cell, reg', evs') => ([], GnlStatus.errS, reg', evs')
termination_by evsCost evs + regLen reg fd
decreasing_by
  exact driver_lineRead_cost c fd d reg evs raw reg' evs' hcall

theorem bufAt_regSet_some (reg : Registry) (fd : Int) (b : GnlBuffer) (c : Nat) :
    bufAt (regSet reg fd (some b)) fd c = b := by
  unfold bufAt
  rw [regSet_same]

theorem gnl_run_eq_line (c : Nat) (fd : Int) (d : Nat) (reg : Registry)
    (evs : List ReadEv) (raw : List Nat) (reg' : Registry) (evs' : List ReadEv)
    (hcall : get_next_line_delim true true c fd d reg evs
      = (GnlStatus.lineRead, LineCell.strL raw, reg', evs')) :
    gnl_run c fd d reg evs =
      (raw.dropLast :: (gnl_run c fd d reg' evs').1, (gnl_run c fd d reg' evs').2) := by
  rw [gnl_run.eq_def]
  split <;> rename_i r2 e2 hc2 <;> rw [hcall] at hc2 <;>
    simp only [Prod.mk.injEq, LineCell.strL.injEq, true_and] at hc2
  · obtain ⟨h2, h3, h4⟩ := hc2
    subst h2 h3 h4
    rfl
  all_goals simp at hc2

theorem gnl_run_eq_eof (c : Nat) (fd : Int) (d : Nat) (reg : Registry)
    (evs : List ReadEv) (cell : LineCell) (reg' : Registry) (evs' : List ReadEv)
    (hcall : get_next_line_delim true true c fd d reg evs
      = (GnlStatus.eofS, cell, reg', evs')) :
    gnl_run c fd d reg evs = ([], GnlStatus.eofS, reg', evs') := by
  rw [gnl_run.eq_def]
  split <;> rename_i r2 e2 hc2 <;> rw [hcall] at hc2 <;>
    simp only [Prod.mk.injEq, true_and] at hc2
  · simp at hc2
  · simp at hc2
  · simp at hc2
  · obtain ⟨-, h3, h4⟩ := hc2
    subst h3 h4
    rfl
  · simp at hc2

/-- Reading a descriptor out to the end: with working allocation, a
valid descriptor and a well-formed stream, the collected segments are
exactly the reference segmentation of the registered bytes followed by
the stream's bytes, and the run ends with GNL_EOF. -/
theorem gnl_run_splits (c : Nat) (fd : Int) (d : Nat) (reg : Registry) (evs : List ReadEv) :
    ¬(fd < 0 ∨ GNL_MAX_FD ≤ fd) →
    WFStream c evs = true →
    ((bufAt reg fd c).eof_reached = true → evs = []) →
    (gnl_run c fd d reg evs).1
        = splitSegs d ((bufAt reg fd c).data ++ streamBytes evs) ∧
      (gnl_run c fd d reg evs).2.1 = GnlStatus.eofS := by
  induction reg, evs using gnl_run.induct c fd d with
  | case1 reg evs raw reg' evs' hcall ih =>
    intro hv hwf hinv
    rcases hloop : gnl_loop true c d (bufAt reg fd c) evs with ⟨st, l, bufE, evsE⟩
    have hd := get_next_line_delim_valid c fd d reg evs hv st l bufE evsE hloop
    have hcall0 := hcall
    rw [hd] at hcall
    simp only [Prod.mk.injEq] at hcall
    obtain ⟨hst, hcell, hreg, hevs⟩ := hcall
    subst hst
    obtain ⟨hA, -, -⟩ :=
      gnl_loop_splits c d (bufAt reg fd c) evs GnlStatus.lineRead l bufE evsE hloop hwf hinv
    obtain ⟨raw2, hl, hseq, hwfE, hinvE⟩ := hA rfl
    subst hl
    unfold lineCellOf at hcell
    injection hcell with hraw
    have hbufE : bufAt reg' fd c = bufE := by
      rw [← hreg]
      exact bufAt_regSet_some _ fd bufE c
    have hih := ih hv (hevs ▸ hwfE) (by rw [hbufE]; exact hevs ▸ hinvE)
    rw [gnl_run_eq_line c fd d reg evs raw reg' evs' hcall0]
    simp only []
    refine ⟨?_, hih.2⟩
    rw [hih.1, hseq, hbufE, hevs, hraw]
  | case2 reg evs reg' evs' hcall =>
    intro hv hwf hinv
    rcases hloop : gnl_loop true c d (bufAt reg fd c) evs with ⟨st, l, bufE, evsE⟩
    have hd := get_next_line_delim_valid c fd d reg evs hv st l bufE evsE hloop
    rw [hd] at hcall
    simp only [Prod.mk.injEq] at hcall
    obtain ⟨-, hcell, -, -⟩ := hcall
    cases l with
    | none => exact absurd hcell (by simp [lineCellOf])
    | some raw => exact absurd hcell (by simp [lineCellOf])
  | case3 reg evs reg' evs' hcall =>
    intro hv hwf hinv
    rcases hloop : gnl_loop true c d (bufAt reg fd c) evs with ⟨st, l, bufE, evsE⟩
    have hd := get_next_line_delim_valid c fd d reg evs hv st l bufE evsE hloop
    rw [hd] at hcall
    simp only [Prod.mk.injEq] at hcall
    obtain ⟨hst, hcell, -, -⟩ := hcall
    subst hst
    obtain ⟨hA, -, -⟩ :=
      gnl_loop_splits c d (bufAt reg fd c) evs GnlStatus.lineRead l bufE evsE hloop hwf hinv
    obtain ⟨raw2, hl, -⟩ := hA rfl
    subst hl
    exact absurd hcell (by simp [lineCellOf])
  | case4 reg evs cell reg' evs' hcall =>
    intro hv hwf hinv
    rcases hloop : gnl_loop true c d (bufAt reg fd c) evs with ⟨st, l, bufE, evsE⟩
    have hd := get_next_line_delim_valid c fd d reg evs hv st l bufE evsE hloop
    rw [hd] at hcall
    simp only [Prod.mk.injEq] at hcall
    obtain ⟨hst, -, -, -⟩ := hcall
    subst hst
    obtain ⟨-, hB, -⟩ :=
      gnl_loop_splits c d (bufAt reg fd c) evs GnlStatus.eofS l bufE evsE hloop hwf hinv
    have hempty := hB rfl
    rw [gnl_run_eq_eof c fd d reg evs (lineCellOf l)
      (regSet (gnl_get_buffer true c reg fd).2 fd (some bufE)) evsE hd]
    rw [hempty, splitSegs_nil]
    simp
  | case5 reg evs cell reg' evs' hcall =>
    intro hv hwf hinv
    rcases hloop : gnl_loop true c d (bufAt reg fd c) evs with ⟨st, l, bufE, evsE⟩
    have hd := get_next_line_delim_valid c fd d reg evs hv st l bufE evsE hloop
    rw [hd] at hcall
    simp only [Prod.mk.injEq] at hcall
    obtain ⟨hst, -, -, -⟩ := hcall
    subst hst
    obtain ⟨-, -, hC⟩ :=
      gnl_loop_splits c d (bufAt reg fd c) evs GnlStatus.errS l bufE evsE hloop hwf hinv
    exact absurd rfl hC

/- Pure facts about the reference segmentation. -/

/-- Concatenating the reference segments gives back the input: the
segmentation neither loses nor duplicates a byte. -/
theorem splitSegs_flatten (d : Nat) (input : List Nat) :
    (splitSegs d input).flatten = input := by
  induction input using splitSegs.induct d with
  | case1 input p hm ih =>
    rw [splitSegs_eq_found d input p hm]
    simp only [List.flatten_cons, ih]
    exact List.take_append_drop (p + 1) input
  | case2 input hm hemp =>
    rw [splitSegs_eq_none d input hm, if_pos hemp]
    simp only [List.flatten_nil]
    exact (List.isEmpty_iff.mp hemp).symm
  | case3 input hm hemp =>
    rw [splitSegs_eq_none d input hm, if_neg hemp]
    simp

/-- Every reference segment except the last holds the delimiter exactly
once, as its final byte. -/
theorem splitSegs_dropLast_delim (d : Nat) (input : List Nat) :
    ∀ seg ∈ (splitSegs d input).dropLast,
      seg.count d = 1 ∧ seg.getLast? = some d := by
  induction input using splitSegs.induct d with
  | case1 input p hm ih =>
    rw [splitSegs_eq_found d input p hm]
    intro seg hseg
    rcases hq : splitSegs d (input.drop (p + 1)) with - | ⟨t1, ts⟩
    · rw [hq] at hseg
      simp at hseg
    · rw [hq] at hseg
      rw [List.dropLast_cons_of_ne_nil (by simp)] at hseg
      simp only [List.mem_cons] at hseg
      rcases hseg with rfl | hseg
      · have htake := gnl_memchr_take d input p hm
        have hbefore := gnl_memchr_before d input p hm
        rw [htake]
        constructor
        · rw [List.count_append]
          have h0 : (input.take p).count d = 0 :=
            List.count_eq_zero.mpr (fun hmem => hbefore d hmem rfl)
          simp [h0, List.count_singleton]
        · simp
      · have := ih seg
        rw [hq] at this
        exact this hseg
  | case2 input hm hemp =>
    rw [splitSegs_eq_none d input hm, if_pos hemp]
    intro seg hseg
    simp at hseg
  | case3 input hm hemp =>
    rw [splitSegs_eq_none d input hm, if_neg hemp]
    intro seg hseg
    simp at hseg

/- Facts about the deterministic full-read schedule. -/

theorem streamBytes_chunkEvents (c : Nat) (hc : 0 < c) :
    ∀ (input : List Nat), streamBytes (chunkEvents c input) = input := by
  intro input
  induction input using chunkEvents.induct c with
  | case1 input h =>
    rw [chunkEvents.eq_def, if_pos h]
    rcases h with h | h
    · subst h; rfl
    · exact absurd h (Nat.pos_iff_ne_zero.mp hc)
  | case2 input h ih =>
    rw [chunkEvents.eq_def, if_neg h]
    simp only [streamBytes, ih]
    exact List.take_append_drop c input

theorem WFStream_chunkEvents (c : Nat) (hc : 0 < c) :
    ∀ (input : List Nat), WFStream c (chunkEvents c input) = true := by
  intro input
  induction input using chunkEvents.induct c with
  | case1 input h =>
    rw [chunkEvents.eq_def, if_pos h]
    rfl
  | case2 input h ih =>
    rw [chunkEvents.eq_def, if_neg h]
    push_neg at h
    obtain ⟨h1, -⟩ := h
    unfold WFStream at ih ⊢
    simp only [List.all_cons, Bool.and_eq_true]
    refine ⟨?_, ih⟩
    have hp : 0 < input.length := List.length_pos.mpr h1
    simp only [wfEv, Bool.and_eq_true, decide_eq_true_eq, List.length_take]
    omega

theorem bufAt_none (reg : Registry) (fd : Int) (c : Nat) (h : reg fd = none) :
    bufAt reg fd c = { data := [], size := c, eof_reached := false } := by
  unfold bufAt
  rw [h]

/-- C1: for every handle and every underlying byte stream, the
segments returned by successive next_segment calls, concatenated in
call order up to and including the call that returns EndOfStream,
reproduce exactly the byte sequence the underlying stream produced,
with no byte lost and no byte duplicated. -/
theorem claim_C1_no_loss_no_dup (c : Nat) (fd : Int) (d : Nat) (reg : Registry)
    (evs : List ReadEv)
    (hv : ¬(fd < 0 ∨ GNL_MAX_FD ≤ fd))
    (hreg : reg fd = none)
    (hwf : WFStream c evs = true) :
    ((gnl_run c fd d reg evs).1).flatten = streamBytes evs ∧
      (gnl_run c fd d reg evs).2.1 = GnlStatus.eofS := by
  have hb := bufAt_none reg fd c hreg
  obtain ⟨h1, h2⟩ := gnl_run_splits c fd d reg evs hv hwf (by rw [hb]; simp)
  refine ⟨?_, h2⟩
  rw [h1, hb]
  simp only [List.nil_append]
  exact splitSegs_flatten d (streamBytes evs)

/-- C2: every segment returned before the run's final one contains the
delimiter byte exactly once, and that occurrence is the segment's
final byte. -/
theorem claim_C2_delim_terminated (c : Nat) (fd : Int) (d : Nat) (reg : Registry)
    (evs : List ReadEv)
    (hv : ¬(fd < 0 ∨ GNL_MAX_FD ≤ fd))
    (hreg : reg fd = none)
    (hwf : WFStream c evs = true) :
    ∀ seg ∈ ((gnl_run c fd d reg evs).1).dropLast,
      seg.count d = 1 ∧ seg.getLast? = some d := by
  have hb := bufAt_none reg fd c hreg
  obtain ⟨h1, -⟩ := gnl_run_splits c fd d reg evs hv hwf (by rw [hb]; simp)
  rw [h1, hb]
  simp only [List.nil_append]
  exact splitSegs_dropLast_delim d (streamBytes evs)

/-- C3: a fresh handle over the stream "a,b,,c" read with delimiter
',' yields the segments "a,", "b,", ",", "c" in order and then
EndOfStream. -/
theorem claim_C3_comma_scenario :
    (gnl_run 4096 0 44 emptyReg [ReadEv.chunk [97, 44, 98, 44, 44, 99]]).1
        = [[97, 44], [98, 44], [44], [99]] ∧
      (gnl_run 4096 0 44 emptyReg [ReadEv.chunk [97, 44, 98, 44, 44, 99]]).2.1
        = GnlStatus.eofS := by
  have hb := bufAt_none emptyReg 0 4096 rfl
  obtain ⟨h1, h2⟩ := gnl_run_splits 4096 0 44 emptyReg [ReadEv.chunk [97, 44, 98, 44, 44, 99]]
    (by decide) (by decide) (by rw [hb]; simp)
  refine ⟨?_, h2⟩
  rw [h1, hb]
  simp only [List.nil_append]
  have hs : streamBytes [ReadEv.chunk [97, 44, 98, 44, 44, 99]] = [97, 44, 98, 44, 44, 99] := by
    simp [streamBytes]
  rw [hs]
  rw [splitSegs_eq_found 44 [97, 44, 98, 44, 44, 99] 1 (by decide)]
  norm_num
  rw [splitSegs_eq_found 44 [98, 44, 44, 99] 1 (by decide)]
  norm_num
  rw [splitSegs_eq_found 44 [44, 99] 0 (by decide)]
  norm_num
  rw [splitSegs_eq_none 44 [99] (by decide)]
  norm_num

/-- C4: for a fixed input byte sequence, handle and delimiter, the
segment sequence and the final status are the same for every positive
refill chunk size. -/
theorem claim_C4_chunk_independence (c1 c2 : Nat) (fd : Int) (d : Nat) (reg : Registry)
    (input : List Nat)
    (h1 : 0 < c1) (h2 : 0 < c2)
    (hv : ¬(fd < 0 ∨ GNL_MAX_FD ≤ fd))
    (hreg : reg fd = none) :
    (gnl_run c1 fd d reg (chunkEvents c1 input)).1
        = (gnl_run c2 fd d reg (chunkEvents c2 input)).1 ∧
      (gnl_run c1 fd d reg (chunkEvents c1 input)).2.1
        = (gnl_run c2 fd d reg (chunkEvents c2 input)).2.1 := by
  have hb1 := bufAt_none reg fd c1 hreg
  have hb2 := bufAt_none reg fd c2 hreg
  obtain ⟨ha1, ha2⟩ := gnl_run_splits c1 fd d reg (chunkEvents c1 input) hv
    (WFStream_chunkEvents c1 h1 input) (by rw [hb1]; simp)
  obtain ⟨hc1, hc2⟩ := gnl_run_splits c2 fd d reg (chunkEvents c2 input) hv
    (WFStream_chunkEvents c2 h2 input) (by rw [hb2]; simp)
  constructor
  · rw [ha1, hc1, hb1, hb2]
    simp only [List.nil_append]
    rw [streamBytes_chunkEvents c1 h1 input, streamBytes_chunkEvents c2 h2 input]
  · rw [ha2, hc2]

/- The doubling loop: full characterization. -/

theorem gnl_grow_loop_spec :
    ∀ (fuel s len needed : Nat), 0 < s →
      len + needed ≤ s * 2 ^ fuel →
      ∃ k, gnl_grow_loop fuel s len needed = s * 2 ^ k ∧
        needed ≤ s * 2 ^ k - len ∧ ∀ j < k, s * 2 ^ j - len < needed := by
  intro fuel
  induction fuel with
  | zero =>
    intro s len needed hs hle
    simp only [pow_zero, mul_one] at hle
    refine ⟨0, ?_, by simp only [pow_zero, mul_one]; omega, by omega⟩
    simp [gnl_grow_loop]
  | succ fuel ih =>
    intro s len needed hs hle
    unfold gnl_grow_loop
    by_cases hcond : s - len < needed
    · rw [if_pos hcond]
      have hle' : len + needed ≤ s * 2 * 2 ^ fuel := by
        have hxy : s * 2 ^ (fuel + 1) = s * 2 * 2 ^ fuel := by ring
        rw [hxy] at hle
        exact hle
      obtain ⟨k, hk1, hk2, hk3⟩ := ih (s * 2) len needed (by omega) hle'
      refine ⟨k + 1, ?_, ?_, ?_⟩
      · rw [hk1]; ring
      · have hxy : s * 2 * 2 ^ k = s * 2 ^ (k + 1) := by ring
        rw [hxy] at hk2
        exact hk2
      · intro j hj
        cases j with
        | zero => simp only [pow_zero, mul_one]; exact hcond
        | succ j' =>
          have hxy : s * 2 ^ (j' + 1) = s * 2 * 2 ^ j' := by ring
          rw [hxy]
          exact hk3 j' (by omega)
    · rw [if_neg hcond]
      refine ⟨0, by simp, by simp only [pow_zero, mul_one]; omega, by omega⟩

/-- C5: ensure_capacity is the identity when capacity - filled already
covers the request, and otherwise replaces the capacity by the least
repeated doubling of the old capacity that covers it, leaving the
valid bytes, the filled count and the EOF flag unchanged. -/
theorem claim_C5_ensure_capacity (buf : GnlBuffer) (needed : Nat)
    (hls : buf.len ≤ buf.size) (hpos : 0 < buf.size) :
    (needed ≤ buf.size - buf.len → gnl_ensure_capacity true buf needed = (true, buf)) ∧
    (¬needed ≤ buf.size - buf.len →
      ∃ k, gnl_ensure_capacity true buf needed
          = (true, { buf with size := buf.size * 2 ^ k }) ∧
        needed ≤ buf.size * 2 ^ k - buf.len ∧
        ∀ j < k, buf.size * 2 ^ j - buf.len < needed) := by
  constructor
  · intro h
    unfold gnl_ensure_capacity
    rw [if_pos h]
  · intro h
    have hentry : buf.len + needed ≤ buf.size * 2 ^ (buf.len + needed + 1) := by
      calc buf.len + needed
          ≤ 2 ^ (buf.len + needed) := le_of_lt (Nat.lt_two_pow _)
        _ ≤ 2 ^ (buf.len + needed + 1) := Nat.pow_le_pow_right (by norm_num) (by omega)
        _ = 1 * 2 ^ (buf.len + needed + 1) := (one_mul _).symm
        _ ≤ buf.size * 2 ^ (buf.len + needed + 1) := Nat.mul_le_mul_right _ hpos
    obtain ⟨k, hk1, hk2, hk3⟩ :=
      gnl_grow_loop_spec (buf.len + needed + 1) buf.size buf.len needed hpos hentry
    refine ⟨k, ?_, hk2, hk3⟩
    unfold gnl_ensure_capacity
    rw [if_neg h]
    simp only [hk1, if_true]

/-- C6: a refill in which the read primitive reports zero bytes
(either an explicit empty chunk or an exhausted event list) sets the
exhausted flag, while a refill hitting a read error fails the current
call with GNL_ERROR, consumes no payload, and leaves the exhausted
flag and the valid bytes exactly as they were. -/
theorem claim_C6_refill_eof_vs_error (c d : Nat) (buf : GnlBuffer) (rest : List ReadEv) :
    ((gnl_fill_buffer true c buf (ReadEv.chunk [] :: rest)).2.1).eof_reached = true ∧
    ((gnl_fill_buffer true c buf []).2.1).eof_reached = true ∧
    (∃ b', gnl_fill_buffer true c buf (ReadEv.rerr :: rest) = (none, b', rest) ∧
      b'.eof_reached = buf.eof_reached ∧ b'.data = buf.data) ∧
    (gnl_find_delim buf d = none → buf.eof_reached = false →
      ∃ b', gnl_loop true c d buf (ReadEv.rerr :: rest)
          = (GnlStatus.errS, none, b', rest) ∧
        b'.eof_reached = buf.eof_reached ∧ b'.data = buf.data) := by
  have hens := gnl_ensure_true_char buf c
  have hdata := gnl_ensure_snd_data true buf c
  have heof := gnl_ensure_snd_eof true buf c
  refine ⟨?_, ?_, ?_, ?_⟩
  · unfold gnl_fill_buffer
    rw [hens]
    simp
  · unfold gnl_fill_buffer
    rw [hens]
  · refine ⟨(gnl_ensure_capacity true buf c).2, ?_, heof, hdata⟩
    unfold gnl_fill_buffer
    rw [hens]
  · intro hfind hb
    refine ⟨(gnl_ensure_capacity true buf c).2, ?_, heof, hdata⟩
    apply gnl_loop_eq_fill_err true c d buf (ReadEv.rerr :: rest) _ rest hfind hb
    unfold gnl_fill_buffer
    rw [hens]

/-- A call of the loop that fails never returns a segment, and loses no
byte: the valid bytes plus the bytes the stream can still produce are
exactly what they were before the call. -/
theorem gnl_loop_err_noloss (a : Bool) (c d : Nat) (buf : GnlBuffer) (evs : List ReadEv) :
    ∀ (l : Option (List Nat)) (buf' : GnlBuffer) (evs' : List ReadEv),
      gnl_loop a c d buf evs = (GnlStatus.errS, l, buf', evs') →
      l = none ∧ buf'.data ++ streamBytes evs' = buf.data ++ streamBytes evs := by
  induction buf, evs using gnl_loop.induct a c d with
  | case1 buf evs p hfind raw0 bufE hext =>
    intro l buf' evs' h
    rw [gnl_loop_eq_found a c d buf evs p raw0 bufE hfind hext] at h
    simp at h
  | case2 buf evs p hfind bufE hext =>
    intro l buf' evs' h
    rw [gnl_loop_eq_found_fail a c d buf evs p bufE hfind hext] at h
    simp only [Prod.mk.injEq] at h
    obtain ⟨-, hl, h1, h2⟩ := h
    obtain ⟨-, hb⟩ := gnl_extract_none_char a buf p bufE hext
    subst hb h1 h2
    exact ⟨hl.symm, rfl⟩
  | case3 buf evs hfind heof hlen raw0 bufE hext =>
    intro l buf' evs' h
    rw [gnl_loop_eq_rem a c d buf evs raw0 bufE hfind heof hlen hext] at h
    simp at h
  | case4 buf evs hfind heof hlen bufE hext =>
    intro l buf' evs' h
    rw [gnl_loop_eq_rem_fail a c d buf evs bufE hfind heof hlen hext] at h
    simp only [Prod.mk.injEq] at h
    obtain ⟨-, hl, h1, h2⟩ := h
    obtain ⟨-, hb⟩ := gnl_extract_none_char a buf (buf.len - 1) bufE hext
    subst hb h1 h2
    exact ⟨hl.symm, rfl⟩
  | case5 buf evs hfind heof hlen =>
    intro l buf' evs' h
    rw [gnl_loop_eq_eof a c d buf evs hfind heof hlen] at h
    simp at h
  | case6 buf evs hfind heof bufE evsE hfill =>
    intro l buf' evs' h
    rw [gnl_loop_eq_fill_err a c d buf evs bufE evsE hfind
      (Bool.not_eq_true _ ▸ heof) hfill] at h
    simp only [Prod.mk.injEq] at h
    obtain ⟨-, hl, h1, h2⟩ := h
    rw [← h1, ← h2]
    exact ⟨hl.symm, gnl_fill_noloss a c buf evs none bufE evsE hfill⟩
  | case7 buf evs hfind heof n bufE evsE hfill ih =>
    intro l buf' evs' h
    rw [gnl_loop_eq_fill_ok a c d buf evs n bufE evsE hfind
      (Bool.not_eq_true _ ▸ heof) hfill] at h
    obtain ⟨hl, hnl⟩ := ih l buf' evs' h
    refine ⟨hl, ?_⟩
    rw [hnl]
    exact gnl_fill_noloss a c buf evs (some n) bufE evsE hfill

/-- C7: failed operations leave the buffer in its last consistent
state.  A failed growth reallocation and a failed extraction
allocation each leave the buffer exactly unmodified, and any loop call
that returns GNL_ERROR stores no segment and neither loses nor
duplicates a byte of the combined buffered-plus-pending data, so the
caller can retry. -/
theorem claim_C7_error_state_consistent (a : Bool) (c d n p : Nat) (buf : GnlBuffer)
    (evs : List ReadEv) :
    ((gnl_ensure_capacity false buf n).2 = buf) ∧
    (gnl_extract_line false buf p = (none, buf)) ∧
    (∀ (l : Option (List Nat)) (buf' : GnlBuffer) (evs' : List ReadEv),
      gnl_loop a c d buf evs = (GnlStatus.errS, l, buf', evs') →
      l = none ∧ buf'.data ++ streamBytes evs' = buf.data ++ streamBytes evs) := by
  refine ⟨?_, ?_, gnl_loop_err_noloss a c d buf evs⟩
  · unfold gnl_ensure_capacity
    split
    · rfl
    · simp
  · unfold gnl_extract_line
    rw [if_neg (by simp)]

/- Invariant preservation machinery. -/

/-- Read events whose payloads fit in one chunk request: what the read
primitive can actually answer when asked for c bytes. -/
def evBoundedEv (c : Nat) : ReadEv → Bool
  | ReadEv.chunk bs => decide (bs.length ≤ c)
  | ReadEv.rerr => true

/-- Every pending read event fits in one chunk request. -/
def EvBounded (c : Nat) (evs : List ReadEv) : Bool := evs.all (evBoundedEv c)

theorem EvBounded_tail (c : Nat) (evs : List ReadEv)
    (h : EvBounded c evs = true) : EvBounded c evs.tail = true := by
  cases evs with
  | nil => exact h
  | cons e rest =>
    unfold EvBounded at h ⊢
    simp only [List.all_cons, Bool.and_eq_true] at h
    exact h.2

theorem gnl_grow_loop_ge :
    ∀ (fuel s len needed : Nat), s ≤ gnl_grow_loop fuel s len needed := by
  intro fuel
  induction fuel with
  | zero => intro s len needed; exact Nat.le_refl s
  | succ fuel ih =>
    intro s len needed
    unfold gnl_grow_loop
    split
    · exact le_trans (by omega) (ih (s * 2) len needed)
    · exact Nat.le_refl s

theorem gnl_ensure_size_ge (a : Bool) (buf : GnlBuffer) (n : Nat) :
    buf.size ≤ ((gnl_ensure_capacity a buf n).2).size := by
  unfold gnl_ensure_capacity
  split
  · exact Nat.le_refl _
  · split
    · exact gnl_grow_loop_ge _ buf.size buf.len n
    · exact Nat.le_refl _

/-- When ensure_capacity reports success on a state satisfying the
invariant with positive capacity, the requested free space is there. -/
theorem gnl_ensure_post (a : Bool) (buf : GnlBuffer) (n : Nat) (b : GnlBuffer)
    (h : gnl_ensure_capacity a buf n = (true, b))
    (hls : buf.len ≤ buf.size) (hpos : 0 < buf.size) :
    n ≤ b.size - b.len := by
  unfold gnl_ensure_capacity at h
  by_cases hcond : n ≤ buf.size - buf.len
  · rw [if_pos hcond] at h
    simp only [Prod.mk.injEq] at h
    rw [← h.2]
    exact hcond
  · rw [if_neg hcond] at h
    cases a with
    | false => simp at h
    | true =>
      simp only [if_true, Prod.mk.injEq] at h
      have hentry : buf.len + n ≤ buf.size * 2 ^ (buf.len + n + 1) := by
        calc buf.len + n
            ≤ 2 ^ (buf.len + n) := le_of_lt (Nat.lt_two_pow _)
          _ ≤ 2 ^ (buf.len + n + 1) := Nat.pow_le_pow_right (by norm_num) (by omega)
          _ = 1 * 2 ^ (buf.len + n + 1) := (one_mul _).symm
          _ ≤ buf.size * 2 ^ (buf.len + n + 1) := Nat.mul_le_mul_right _ hpos
      obtain ⟨k, hk1, hk2, -⟩ :=
        gnl_grow_loop_spec (buf.len + n + 1) buf.size buf.len n hpos hentry
      rw [hk1] at h
      rw [← h.2]
      simp only [GnlBuffer.len] at hk2 ⊢
      exact hk2

theorem gnl_ensure_false_snd (a : Bool) (buf : GnlBuffer) (n : Nat)
    (h : (gnl_ensure_capacity a buf n).1 = false) :
    (gnl_ensure_capacity a buf n).2 = buf := by
  unfold gnl_ensure_capacity at h ⊢
  split at h
  · simp at h
  · split at h
    · simp at h
    · rename_i h1 h2
      rw [if_neg h1, if_neg (by simpa using h2)]

/-- A refill preserves the buffer invariant and only ever raises the
EOF flag. -/
theorem gnl_fill_inv (a : Bool) (c : Nat) (buf : GnlBuffer) (evs : List ReadEv)
    (r : Option Nat) (buf' : GnlBuffer) (evs' : List ReadEv)
    (hfill : gnl_fill_buffer a c buf evs = (r, buf', evs')) :
    (buf.eof_reached = true → buf'.eof_reached = true) ∧
    (buf.len ≤ buf.size → 0 < buf.size → EvBounded c evs = true →
      buf'.len ≤ buf'.size ∧ 0 < buf'.size) ∧
    (EvBounded c evs = true → EvBounded c evs' = true) := by
  have hbnd : EvBounded c evs = true → EvBounded c evs' = true := by
    intro h
    rcases gnl_fill_evs a c buf evs r buf' evs' hfill with hq | hq
    · rw [hq]; exact h
    · rw [hq]; exact EvBounded_tail c evs h
  refine ⟨?_, ?_, hbnd⟩ <;>
  · unfold gnl_fill_buffer at hfill
    rcases hens : gnl_ensure_capacity a buf c with ⟨ok, b⟩
    rw [hens] at hfill
    have hbl : b.len = buf.len := by
      have h := gnl_ensure_snd_len a buf c; rw [hens] at h; exact h
    have hbe : b.eof_reached = buf.eof_reached := by
      have h := gnl_ensure_snd_eof a buf c; rw [hens] at h; exact h
    have hbs : buf.size ≤ b.size := by
      have h := gnl_ensure_size_ge a buf c; rw [hens] at h; exact h
    cases ok with
    | false =>
      simp only [Prod.mk.injEq] at hfill
      obtain ⟨-, h1, -⟩ := hfill
      subst h1
      first
      | exact fun h => by rw [hbe]; exact h
      | exact fun h1 h2 h3 => by
          simp only [GnlBuffer.len] at hbl h1 ⊢
          omega
    | true =>
      have hpost : ∀ (hls : buf.len ≤ buf.size) (hpos : 0 < buf.size),
          c ≤ b.size - b.len :=
        fun hls hpos => gnl_ensure_post a buf c b hens hls hpos
      cases evs with
      | nil =>
        simp only [Prod.mk.injEq] at hfill
        obtain ⟨-, h1, -⟩ := hfill
        subst h1
        first
        | exact fun h => rfl
        | exact fun h1 h2 h3 => by
            simp only [GnlBuffer.len] at hbl h1 ⊢
            omega
      | cons e rest =>
        cases e with
        | rerr =>
          simp only [Prod.mk.injEq] at hfill
          obtain ⟨-, h1, -⟩ := hfill
          subst h1
          first
          | exact fun h => by rw [hbe]; exact h
          | exact fun h1 h2 h3 => by
              simp only [GnlBuffer.len] at hbl h1 ⊢
              omega
        | chunk bs =>
          simp only [] at hfill
          by_cases hlen : bs.length = 0
          · rw [if_pos hlen] at hfill
            simp only [Prod.mk.injEq] at hfill
            obtain ⟨-, h1, -⟩ := hfill
            subst h1
            first
            | exact fun h => rfl
            | exact fun h1 h2 h3 => by
                simp only [GnlBuffer.len] at hbl h1 ⊢
                omega
          · rw [if_neg hlen] at hfill
            simp only [Prod.mk.injEq] at hfill
            obtain ⟨-, h1, -⟩ := hfill
            subst h1
            first
            | exact fun h => by rw [hbe]; exact h
            | exact fun h1 h2 h3 => by
                have hc := hpost h1 h2
                have hbs2 : bs.length ≤ c := by
                  unfold EvBounded at h3
                  simp only [List.all_cons, Bool.and_eq_true] at h3
                  have := h3.1
                  simp only [evBoundedEv, decide_eq_true_eq] at this
                  exact this
                simp only [GnlBuffer.len, List.length_append] at hbl h1 ⊢
                simp only [GnlBuffer.len] at hc
                omega

/-- The loop preserves the buffer invariant and only ever raises the
EOF flag. -/
theorem gnl_loop_inv (a : Bool) (c d : Nat) (buf : GnlBuffer) (evs : List ReadEv) :
    ∀ (st : GnlStatus) (l : Option (List Nat)) (buf' : GnlBuffer) (evs' : List ReadEv),
      gnl_loop a c d buf evs = (st, l, buf', evs') →
      (buf.eof_reached = true → buf'.eof_reached = true) ∧
      (buf.len ≤ buf.size → 0 < buf.size → EvBounded c evs = true →
        buf'.len ≤ buf'.size ∧ 0 < buf'.size) := by
  induction buf, evs using gnl_loop.induct a c d with
  | case1 buf evs p hfind raw0 bufE hext =>
    intro st l buf' evs' h
    rw [gnl_loop_eq_found a c d buf evs p raw0 bufE hfind hext] at h
    simp only [Prod.mk.injEq] at h
    obtain ⟨-, -, h1, -⟩ := h
    obtain ⟨-, hb⟩ := gnl_extract_some_char a buf p raw0 bufE hext
    rw [← h1, hb]
    refine ⟨fun h => h, fun h1 h2 h3 => ⟨?_, h2⟩⟩
    simp only [GnlBuffer.len, List.length_drop] at h1 ⊢
    omega
  | case2 buf evs p hfind bufE hext =>
    intro st l buf' evs' h
    rw [gnl_loop_eq_found_fail a c d buf evs p bufE hfind hext] at h
    simp only [Prod.mk.injEq] at h
    obtain ⟨-, -, h1, -⟩ := h
    obtain ⟨-, hb⟩ := gnl_extract_none_char a buf p bufE hext
    rw [← h1, hb]
    exact ⟨fun h => h, fun h1 h2 h3 => ⟨h1, h2⟩⟩
  | case3 buf evs hfind heof hlen raw0 bufE hext =>
    intro st l buf' evs' h
    rw [gnl_loop_eq_rem a c d buf evs raw0 bufE hfind heof hlen hext] at h
    simp only [Prod.mk.injEq] at h
    obtain ⟨-, -, h1, -⟩ := h
    obtain ⟨-, hb⟩ := gnl_extract_some_char a buf (buf.len - 1) raw0 bufE hext
    rw [← h1, hb]
    refine ⟨fun h => h, fun h1 h2 h3 => ⟨?_, h2⟩⟩
    simp only [GnlBuffer.len, List.length_drop] at h1 ⊢
    omega
  | case4 buf evs hfind heof hlen bufE hext =>
    intro st l buf' evs' h
    rw [gnl_loop_eq_rem_fail a c d buf evs bufE hfind heof hlen hext] at h
    simp only [Prod.mk.injEq] at h
    obtain ⟨-, -, h1, -⟩ := h
    obtain ⟨-, hb⟩ := gnl_extract_none_char a buf (buf.len - 1) bufE hext
    rw [← h1, hb]
    exact ⟨fun h => h, fun h1 h2 h3 => ⟨h1, h2⟩⟩
  | case5 buf evs hfind heof hlen =>
    intro st l buf' evs' h
    rw [gnl_loop_eq_eof a c d buf evs hfind heof hlen] at h
    simp only [Prod.mk.injEq] at h
    obtain ⟨-, -, h1, -⟩ := h
    rw [← h1]
    exact ⟨fun h => h, fun h1 h2 h3 => ⟨h1, h2⟩⟩
  | case6 buf evs hfind heof bufE evsE hfill =>
    intro st l buf' evs' h
    rw [gnl_loop_eq_fill_err a c d buf evs bufE evsE hfind
      (Bool.not_eq_true _ ▸ heof) hfill] at h
    simp only [Prod.mk.injEq] at h
    obtain ⟨-, -, h1, -⟩ := h
    obtain ⟨hf1, hf2, -⟩ := gnl_fill_inv a c buf evs none bufE evsE hfill
    rw [← h1]
    exact ⟨hf1, hf2⟩
  | case7 buf evs hfind heof n bufE evsE hfill ih =>
    intro st l buf' evs' h
    rw [gnl_loop_eq_fill_ok a c d buf evs n bufE evsE hfind
      (Bool.not_eq_true _ ▸ heof) hfill] at h
    obtain ⟨hf1, hf2, hf3⟩ := gnl_fill_inv a c buf evs (some n) bufE evsE hfill
    obtain ⟨hi1, hi2⟩ := ih st l buf' evs' h
    refine ⟨fun hq => hi1 (hf1 hq), fun h1 h2 h3 => ?_⟩
    obtain ⟨hq1, hq2⟩ := hf2 h1 h2 h3
    exact hi2 hq1 hq2 (hf3 h3)

/-- C8: every buffer operation keeps filled at most capacity (the
valid bytes being the data prefix) and the exhausted flag is monotone:
no operation ever clears it. -/
theorem claim_C8_invariant_and_monotonicity (a : Bool) (c n p d : Nat)
    (buf : GnlBuffer) (evs : List ReadEv) :
    (((gnl_ensure_capacity a buf n).2).eof_reached = buf.eof_reached ∧
      (buf.len ≤ buf.size →
        ((gnl_ensure_capacity a buf n).2).len ≤ ((gnl_ensure_capacity a buf n).2).size)) ∧
    (((gnl_extract_line a buf p).2).eof_reached = buf.eof_reached ∧
      (buf.len ≤ buf.size →
        ((gnl_extract_line a buf p).2).len ≤ ((gnl_extract_line a buf p).2).size)) ∧
    ((buf.eof_reached = true → ((gnl_fill_buffer a c buf evs).2.1).eof_reached = true) ∧
      (buf.len ≤ buf.size → 0 < buf.size → EvBounded c evs = true →
        ((gnl_fill_buffer a c buf evs).2.1).len ≤ ((gnl_fill_buffer a c buf evs).2.1).size ∧
          0 < ((gnl_fill_buffer a c buf evs).2.1).size)) ∧
    ((buf.eof_reached = true → ((gnl_loop a c d buf evs).2.2.1).eof_reached = true) ∧
      (buf.len ≤ buf.size → 0 < buf.size → EvBounded c evs = true →
        ((gnl_loop a c d buf evs).2.2.1).len ≤ ((gnl_loop a c d buf evs).2.2.1).size ∧
          0 < ((gnl_loop a c d buf evs).2.2.1).size)) := by
  refine ⟨⟨gnl_ensure_snd_eof a buf n, ?_⟩, ⟨?_, ?_⟩, ⟨?_, ?_⟩, ⟨?_, ?_⟩⟩
  · intro h
    rw [gnl_ensure_snd_len a buf n]
    exact le_trans h (gnl_ensure_size_ge a buf n)
  · unfold gnl_extract_line
    split
    · rfl
    · rfl
  · intro h
    unfold gnl_extract_line
    split
    · simp only [GnlBuffer.len, List.length_drop] at h ⊢
      omega
    · exact h
  · rcases hfill : gnl_fill_buffer a c buf evs with ⟨r, bufE, evsE⟩
    exact (gnl_fill_inv a c buf evs r bufE evsE hfill).1
  · rcases hfill : gnl_fill_buffer a c buf evs with ⟨r, bufE, evsE⟩
    exact (gnl_fill_inv a c buf evs r bufE evsE hfill).2.1
  · rcases hloop : gnl_loop a c d buf evs with ⟨st, l, bufE, evsE⟩
    exact (gnl_loop_inv a c d buf evs st l bufE evsE hloop).1
  · rcases hloop : gnl_loop a c d buf evs with ⟨st, l, bufE, evsE⟩
    exact (gnl_loop_inv a c d buf evs st l bufE evsE hloop).2

/-- C9: releasing a handle is idempotent and never an error: a second
release, a release of a never-used handle, and a release of an
out-of-range or negative handle all leave the registry untouched, and
no other handle's state is ever affected. -/
theorem claim_C9_release_idempotent (reg : Registry) (fd : Int) :
    gnl_close (gnl_close reg fd) fd = gnl_close reg fd ∧
    (reg fd = none → gnl_close reg fd = reg) ∧
    ((fd < 0 ∨ GNL_MAX_FD ≤ fd) → gnl_close reg fd = reg) ∧
    (∀ fd', fd' ≠ fd → gnl_close reg fd fd' = reg fd') := by
  have habsent : ∀ (r : Registry), r fd = none → gnl_close r fd = r := by
    intro r hr
    unfold gnl_close
    split
    · rfl
    · rw [hr]
  have hoor : (fd < 0 ∨ GNL_MAX_FD ≤ fd) → gnl_close reg fd = reg := by
    intro h
    unfold gnl_close
    rw [if_pos h]
  refine ⟨?_, habsent reg, hoor, ?_⟩
  · by_cases hv : fd < 0 ∨ GNL_MAX_FD ≤ fd
    · have h := hoor hv
      rw [h]
      unfold gnl_close
      rw [if_pos hv]
    · cases hreg : reg fd with
      | none =>
        have h := habsent reg hreg
        rw [h]
        exact habsent reg hreg
      | some b =>
        have hinner : gnl_close reg fd = regSet reg fd none := by
          unfold gnl_close
          rw [if_neg hv, hreg]
        rw [hinner]
        exact habsent (regSet reg fd none) (regSet_same reg fd none)
  · intro fd' hne
    unfold gnl_close
    split
    · rfl
    · cases hreg : reg fd with
      | none => rfl
      | some b => exact regSet_other reg fd fd' none hne

/-- A loop call returns GNL_LINE_READ exactly when it stores a line,
and every stored line is the segment bytes followed by one terminating
zero byte. -/
theorem gnl_loop_line_shape (a : Bool) (c d : Nat) (buf : GnlBuffer) (evs : List ReadEv) :
    ∀ (st : GnlStatus) (l : Option (List Nat)) (buf' : GnlBuffer) (evs' : List ReadEv),
      gnl_loop a c d buf evs = (st, l, buf', evs') →
      (st = GnlStatus.lineRead ↔ ∃ raw, l = some raw) ∧
      (∀ raw, l = some raw → ∃ seg, raw = seg ++ [0]) := by
  induction buf, evs using gnl_loop.induct a c d with
  | case1 buf evs p hfind raw0 bufE hext =>
    intro st l buf' evs' h
    rw [gnl_loop_eq_found a c d buf evs p raw0 bufE hfind hext] at h
    simp only [Prod.mk.injEq] at h
    obtain ⟨h1, h2, -, -⟩ := h
    subst h1
    obtain ⟨hraw, -⟩ := gnl_extract_some_char a buf p raw0 bufE hext
    refine ⟨⟨fun _ => ⟨raw0, h2.symm⟩, fun _ => rfl⟩, ?_⟩
    intro raw hr
    rw [← h2] at hr
    obtain rfl := Option.some.injEq .. ▸ hr
    exact ⟨buf.data.take (p + 1), hraw⟩
  | case2 buf evs p hfind bufE hext =>
    intro st l buf' evs' h
    rw [gnl_loop_eq_found_fail a c d buf evs p bufE hfind hext] at h
    simp only [Prod.mk.injEq] at h
    obtain ⟨h1, h2, -, -⟩ := h
    subst h1
    refine ⟨⟨fun hq => absurd hq (by simp), fun ⟨raw, hr⟩ => ?_⟩, fun raw hr => ?_⟩
    · rw [← h2] at hr; simp at hr
    · rw [← h2] at hr; simp at hr
  | case3 buf evs hfind heof hlen raw0 bufE hext =>
    intro st l buf' evs' h
    rw [gnl_loop_eq_rem a c d buf evs raw0 bufE hfind heof hlen hext] at h
    simp only [Prod.mk.injEq] at h
    obtain ⟨h1, h2, -, -⟩ := h
    subst h1
    obtain ⟨hraw, -⟩ := gnl_extract_some_char a buf (buf.len - 1) raw0 bufE hext
    refine ⟨⟨fun _ => ⟨raw0, h2.symm⟩, fun _ => rfl⟩, ?_⟩
    intro raw hr
    rw [← h2] at hr
    obtain rfl := Option.some.injEq .. ▸ hr
    exact ⟨buf.data.take (buf.len - 1 + 1), hraw⟩
  | case4 buf evs hfind heof hlen bufE hext =>
    intro st l buf' evs' h
    rw [gnl_loop_eq_rem_fail a c d buf evs bufE hfind heof hlen hext] at h
    simp only [Prod.mk.injEq] at h
    obtain ⟨h1, h2, -, -⟩ := h
    subst h1
    refine ⟨⟨fun hq => absurd hq (by simp), fun ⟨raw, hr⟩ => ?_⟩, fun raw hr => ?_⟩
    · rw [← h2] at hr; simp at hr
    · rw [← h2] at hr; simp at hr
  | case5 buf evs hfind heof hlen =>
    intro st l buf' evs' h
    rw [gnl_loop_eq_eof a c d buf evs hfind heof hlen] at h
    simp only [Prod.mk.injEq] at h
    obtain ⟨h1, h2, -, -⟩ := h
    subst h1
    refine ⟨⟨fun hq => absurd hq (by simp), fun ⟨raw, hr⟩ => ?_⟩, fun raw hr => ?_⟩
    · rw [← h2] at hr; simp at hr
    · rw [← h2] at hr; simp at hr
  | case6 buf evs hfind heof bufE evsE hfill =>
    intro st l buf' evs' h
    rw [gnl_loop_eq_fill_err a c d buf evs bufE evsE hfind
      (Bool.not_eq_true _ ▸ heof) hfill] at h
    simp only [Prod.mk.injEq] at h
    obtain ⟨h1, h2, -, -⟩ := h
    subst h1
    refine ⟨⟨fun hq => absurd hq (by simp), fun ⟨raw, hr⟩ => ?_⟩, fun raw hr => ?_⟩
    · rw [← h2] at hr; simp at hr
    · rw [← h2] at hr; simp at hr
  | case7 buf evs hfind heof n bufE evsE hfill ih =>
    intro st l buf' evs' h
    rw [gnl_loop_eq_fill_ok a c d buf evs n bufE evsE hfind
      (Bool.not_eq_true _ ▸ heof) hfill] at h
    exact ih st l buf' evs' h

/-- C10: on a valid call with a non-null line pointer, a GNL_LINE_READ
result stores an allocation of the segment bytes followed by a
terminating zero byte at index L (so L + 1 bytes for an L-byte
segment), and every GNL_EOF or GNL_ERROR outcome after validation
stores the null pointer. -/
theorem claim_C10_line_out_parameter (a : Bool) (c : Nat) (fd : Int) (d : Nat)
    (reg : Registry) (evs : List ReadEv) (st : GnlStatus) (cell : LineCell)
    (reg' : Registry) (evs' : List ReadEv)
    (hv : ¬(fd < 0 ∨ GNL_MAX_FD ≤ fd))
    (hcall : get_next_line_delim a true c fd d reg evs = (st, cell, reg', evs')) :
    (st = GnlStatus.lineRead → ∃ seg, cell = LineCell.strL (seg ++ [0]) ∧
      (seg ++ [0]).length = seg.length + 1) ∧
    (st = GnlStatus.eofS ∨ st = GnlStatus.errS → cell = LineCell.nullp) := by
  unfold get_next_line_delim at hcall
  rw [if_neg (by simpa using hv)] at hcall
  rcases hg : gnl_get_buffer a c reg fd with ⟨ob, reg1⟩
  rw [hg] at hcall
  cases ob with
  | none =>
    simp only [Prod.mk.injEq] at hcall
    obtain ⟨h1, h2, -, -⟩ := hcall
    subst h1
    exact ⟨fun hq => absurd hq (by simp), fun _ => h2.symm⟩
  | some buf0 =>
    simp only [] at hcall
    rcases hloop : gnl_loop a c d buf0 evs with ⟨st0, l0, bufE, evsE⟩
    rw [hloop] at hcall
    obtain ⟨hsh1, hsh2⟩ := gnl_loop_line_shape a c d buf0 evs st0 l0 bufE evsE hloop
    cases l0 with
    | some raw =>
      simp only [Prod.mk.injEq] at hcall
      obtain ⟨h1, h2, -, -⟩ := hcall
      subst h1
      obtain ⟨seg, hseg⟩ := hsh2 raw rfl
      subst hseg
      refine ⟨fun _ => ⟨seg, h2.symm, by simp⟩, fun hor => ?_⟩
      have hline : st0 = GnlStatus.lineRead := hsh1.mpr ⟨seg ++ [0], rfl⟩
      rcases hor with hq | hq <;> rw [hline] at hq <;> exact absurd hq (by simp)
    | none =>
      simp only [Prod.mk.injEq] at hcall
      obtain ⟨h1, h2, -, -⟩ := hcall
      subst h1
      refine ⟨fun hq => ?_, fun _ => h2.symm⟩
      obtain ⟨raw, hr⟩ := hsh1.mp hq
      simp at hr

/- Concrete witnesses instantiating each hypothesis-bearing claim. -/

theorem claim_C1_witness :
    ((gnl_run 4096 0 10 emptyReg [ReadEv.chunk [104, 105, 10]]).1).flatten
        = streamBytes [ReadEv.chunk [104, 105, 10]] ∧
      (gnl_run 4096 0 10 emptyReg [ReadEv.chunk [104, 105, 10]]).2.1 = GnlStatus.eofS :=
  claim_C1_no_loss_no_dup 4096 0 10 emptyReg [ReadEv.chunk [104, 105, 10]]
    (by decide) rfl (by decide)

theorem claim_C2_witness :
    ([97, 10] : List Nat).count 10 = 1 ∧ ([97, 10] : List Nat).getLast? = some 10 :=
  claim_C2_delim_terminated 3 0 10 emptyReg [ReadEv.chunk [97, 10, 98]]
    (by decide) rfl (by decide) [97, 10]
    (by
      have hb := bufAt_none emptyReg 0 3 rfl
      obtain ⟨h1, -⟩ := gnl_run_splits 3 0 10 emptyReg [ReadEv.chunk [97, 10, 98]]
        (by decide) (by decide) (by rw [hb]; simp)
      rw [h1, hb]
      simp only [List.nil_append]
      have hs : streamBytes [ReadEv.chunk [97, 10, 98]] = [97, 10, 98] := by
        simp [streamBytes]
      rw [hs]
      rw [splitSegs_eq_found 10 [97, 10, 98] 1 (by decide)]
      norm_num
      rw [splitSegs_eq_none 10 [98] (by decide)]
      norm_num)

theorem claim_C4_witness :
    (gnl_run 1 0 10 emptyReg (chunkEvents 1 [97, 10, 98])).1
        = (gnl_run 4096 0 10 emptyReg (chunkEvents 4096 [97, 10, 98])).1 ∧
      (gnl_run 1 0 10 emptyReg (chunkEvents 1 [97, 10, 98])).2.1
        = (gnl_run 4096 0 10 emptyReg (chunkEvents 4096 [97, 10, 98])).2.1 :=
  claim_C4_chunk_independence 1 4096 0 10 emptyReg [97, 10, 98]
    (by decide) (by decide) (by decide) rfl

theorem claim_C5_witness :
    (10 ≤ ({ data := [1, 2], size := 4, eof_reached := false } : GnlBuffer).size
          - ({ data := [1, 2], size := 4, eof_reached := false } : GnlBuffer).len →
      gnl_ensure_capacity true { data := [1, 2], size := 4, eof_reached := false } 10
        = (true, { data := [1, 2], size := 4, eof_reached := false })) ∧
    (¬10 ≤ ({ data := [1, 2], size := 4, eof_reached := false } : GnlBuffer).size
          - ({ data := [1, 2], size := 4, eof_reached := false } : GnlBuffer).len →
      ∃ k, gnl_ensure_capacity true { data := [1, 2], size := 4, eof_reached := false } 10
          = (true, { data := [1, 2], size := 4 * 2 ^ k, eof_reached := false }) ∧
        10 ≤ 4 * 2 ^ k - ({ data := [1, 2], size := 4, eof_reached := false } : GnlBuffer).len ∧
        ∀ j < k, 4 * 2 ^ j - ({ data := [1, 2], size := 4, eof_reached := false } : GnlBuffer).len < 10) :=
  claim_C5_ensure_capacity { data := [1, 2], size := 4, eof_reached := false } 10
    (by decide) (by decide)

theorem claim_C6_witness :
    ∃ b', gnl_loop true 8 10 { data := [97], size := 8, eof_reached := false } [ReadEv.rerr]
        = (GnlStatus.errS, none, b', []) ∧
      b'.eof_reached = ({ data := [97], size := 8, eof_reached := false } : GnlBuffer).eof_reached ∧
      b'.data = ({ data := [97], size := 8, eof_reached := false } : GnlBuffer).data :=
  (claim_C6_refill_eof_vs_error 8 10 { data := [97], size := 8, eof_reached := false } []).2.2.2
    (by decide) rfl

theorem claim_C7_witness :
    (none : Option (List Nat)) = none ∧
      ({ data := [], size := 8, eof_reached := false } : GnlBuffer).data ++ streamBytes []
        = ({ data := [], size := 8, eof_reached := false } : GnlBuffer).data
            ++ streamBytes [ReadEv.rerr] :=
  (claim_C7_error_state_consistent true 8 10 8 0 { data := [], size := 8, eof_reached := false }
      [ReadEv.rerr]).2.2
    none { data := [], size := 8, eof_reached := false } []
    (by simp [gnl_loop, gnl_fill_buffer, gnl_find_delim, gnl_ensure_capacity,
      gnl_memchr, GnlBuffer.len])

theorem claim_C8_witness :
    ((gnl_loop true 8 10 { data := [1], size := 4, eof_reached := false } []).2.2.1).len
        ≤ ((gnl_loop true 8 10 { data := [1], size := 4, eof_reached := false } []).2.2.1).size ∧
      0 < ((gnl_loop true 8 10 { data := [1], size := 4, eof_reached := false } []).2.2.1).size :=
  (claim_C8_invariant_and_monotonicity true 8 4 0 10
      { data := [1], size := 4, eof_reached := false } []).2.2.2.2
    (by decide) (by decide) rfl

theorem claim_C9_witness :
    gnl_close emptyReg 5 = emptyReg ∧ gnl_close emptyReg 2000 = emptyReg :=
  ⟨(claim_C9_release_idempotent emptyReg 5).2.1 rfl,
   (claim_C9_release_idempotent emptyReg 2000).2.2.1 (by decide)⟩

theorem claim_C10_witness :
    ((get_next_line_delim true true 8 0 10 emptyReg []).1 = GnlStatus.lineRead →
      ∃ seg, (get_next_line_delim true true 8 0 10 emptyReg []).2.1
          = LineCell.strL (seg ++ [0]) ∧ (seg ++ [0]).length = seg.length + 1) ∧
    ((get_next_line_delim true true 8 0 10 emptyReg []).1 = GnlStatus.eofS ∨
        (get_next_line_delim true true 8 0 10 emptyReg []).1 = GnlStatus.errS →
      (get_next_line_delim true true 8 0 10 emptyReg []).2.1 = LineCell.nullp) :=
  claim_C10_line_out_parameter true 8 0 10 emptyReg []
    (get_next_line_delim true true 8 0 10 emptyReg []).1
    (get_next_line_delim true true 8 0 10 emptyReg []).2.1
    (get_next_line_delim true true 8 0 10 emptyReg []).2.2.1
    (get_next_line_delim true true 8 0 10 emptyReg []).2.2.2
    (by decide) rfl
